import Mathlib

/-!
Verification development for the completion engine of `ptpython`
(`src/ptpython/completer.py`).

The development shallowly embeds the two cores of the completer:

* the escape/unescape helpers and the path-completer lexical grammar built in
  `PythonCompleter._create_path_completer_grammar` (the grammar is compiled by
  the host's grammar compiler into a Python regex with `re.DOTALL` and
  anchored as `^...$`; we embed the resulting regex's matching relation
  directly as an executable backtracking recogniser);

* the `DictionaryCompleter` (safe-expression search patterns, for-loop
  binder, trigger / item-lookup / attribute-lookup completion generators)
  and the aggregation logic of `PythonCompleter.get_completions`.

Host-runtime facilities used by the source (the `eval` builtin, `repr`,
`str`, `dir`) are external collaborators; they are abstracted as a `Host`
record of capability functions, and concrete small instances are supplied
for witnesses.  Python values are modelled by the inductive `PyVal`.
-/

namespace Ptpython

/-! ## Escape and unescape helpers (`_create_path_completer_grammar`) -/

/-- Embedding of `re.sub(r"\\(.)", r"\1", text)` from `unwrapper`:
scan left to right; a backslash followed by any character other than a
newline (`.` does not match a newline in `re.sub` without `re.DOTALL`)
is replaced by that character; other characters are copied. -/
def unwrapperL : List Char → List Char
  | [] => []
  | [c] => [c]
  | c :: d :: rest2 =>
    if c = '\\' then
      (if d = '\n' then '\\' :: unwrapperL (d :: rest2) else d :: unwrapperL rest2)
    else c :: unwrapperL (d :: rest2)

/-- Embedding of Python `str.replace(old, new)` for a one-character
pattern: every occurrence of `old` is replaced by `new`. -/
def pyReplaceChar (old : Char) (new : List Char) : List Char → List Char
  | [] => []
  | c :: rest => (if c = old then new else [c]) ++ pyReplaceChar old new rest

/-- `single_quoted_wrapper`: `text.replace("\\", "\\\\").replace("'", "\\'")`. -/
def single_quoted_wrapperL (s : List Char) : List Char :=
  pyReplaceChar '\'' ['\\', '\''] (pyReplaceChar '\\' ['\\', '\\'] s)

/-- `double_quoted_wrapper`: `text.replace("\\", "\\\\").replace('"', '\\"')`. -/
def double_quoted_wrapperL (s : List Char) : List Char :=
  pyReplaceChar '"' ['\\', '"'] (pyReplaceChar '\\' ['\\', '\\'] s)

/-- String-level `unwrapper`. -/
def unwrapper (s : String) : String := ⟨unwrapperL s.data⟩

/-- String-level `single_quoted_wrapper`. -/
def single_quoted_wrapper (s : String) : String := ⟨single_quoted_wrapperL s.data⟩

/-- String-level `double_quoted_wrapper`. -/
def double_quoted_wrapper (s : String) : String := ⟨double_quoted_wrapperL s.data⟩

/-! ## Python values, environments, and the host capability record -/

/-- Model of the Python values the completer inspects.  `obj` stands for
an arbitrary further object, identified by a tag; its attribute list is
supplied by the host capability `dirF`. -/
inductive PyVal where
  | none
  | int (n : Int)
  | str (s : String)
  | list (xs : List PyVal)
  | tuple (xs : List PyVal)
  | dict (entries : List (PyVal × PyVal))
  | obj (tag : String)
  deriving Inhabited

/-- A variable environment: an association list (first binding wins),
modelling a Python name-to-value mapping. -/
abbrev Env := List (String × PyVal)

def envLookup : Env → String → Option PyVal
  | [], _ => Option.none
  | (k, v) :: rest, n => if k = n then some v else envLookup rest n

/-- Python truthiness of the modelled values. -/
def pyTruthy : PyVal → Bool
  | .none => false
  | .int n => !(n = 0 : Bool)
  | .str s => !s.data.isEmpty
  | .list xs => !xs.isEmpty
  | .tuple xs => !xs.isEmpty
  | .dict es => !es.isEmpty
  | .obj _ => true

/-- Host capabilities used by `DictionaryCompleter`: the `eval` builtin
(taking the expression, the globals and the locals), and the `str`,
`repr` and `dir` builtins.  `reprF v = none` models `repr` raising.
These are external collaborators of the completer; theorems quantify
over them or fix small concrete instances. -/
structure Host where
  ev : String → Env → Env → Except Unit PyVal
  strF : PyVal → String
  reprF : PyVal → Option String
  dirF : PyVal → List String

/-- Python `str.strip()`: remove leading and trailing whitespace. -/
def pyStrip (s : String) : String :=
  String.mk (((s.data.dropWhile (fun c =>
    c = ' ' || c = '\t' || c = '\n' || c = '\r' || c = '\x0b' || c = '\x0c')).reverse.dropWhile
      (fun c =>
    c = ' ' || c = '\t' || c = '\n' || c = '\r' || c = '\x0b' || c = '\x0c')).reverse)

/-- Embedding of `DictionaryCompleter._lookup`: evaluate the stripped
expression against globals and the temporary locals; any exception
(`except BaseException`) yields Python `None`. -/
def lookup (H : Host) (expression : String) (g tl : Env) : PyVal :=
  match H.ev (pyStrip expression) g tl with
  | .ok v => v
  | .error _ => PyVal.none

/-- Modelled from the spec: the host `eval` restricted to bare variable
names, resolving locals before globals and raising (`error`) otherwise —
the behaviour of Python `eval` on an identifier.  Used as a concrete
evaluator instance in witnesses. -/
def evalVarName : String → Env → Env → Except Unit PyVal := fun e g l =>
  if e.data ≠ [] && e.data.all (fun c =>
      ('a' ≤ c && c ≤ 'z') || ('A' ≤ c && c ≤ 'Z') || ('0' ≤ c && c ≤ '9') || c = '_') then
    match envLookup l e with
    | some v => Except.ok v
    | Option.none =>
      match envLookup g e with
      | some v => Except.ok v
      | Option.none => Except.error ()
  else Except.error ()

/-! ## The safe-expression patterns of `DictionaryCompleter.__init__`

The four compiled patterns (`for_loop_pattern`, `expression_pattern`,
`item_lookup_pattern`, `attribute_lookup_pattern`) are embedded as
executable search functions with Python `re.search` semantics: leftmost
starting position first, and at a fixed position the greedy chunk list
first, giving chunks back from the end.  Within one alternative the
scanning is deterministic for these patterns (the character following a
shortened greedy run can never satisfy the next pattern element), which
the functions below exploit. -/

def isVarStart (c : Char) : Bool :=
  ('a' ≤ c && c ≤ 'z') || ('A' ≤ c && c ≤ 'Z') || c = '_'

def isVarChar (c : Char) : Bool := isVarStart c || ('0' ≤ c && c ≤ '9')

/-- Python `\s` (the ASCII whitespace characters relevant here). -/
def isPySpace (c : Char) : Bool :=
  c = ' ' || c = '\t' || c = '\n' || c = '\r' || c = '\x0b' || c = '\x0c'

/-- Greedy match of `[a-zA-Z_][a-zA-Z0-9_]*`: the consumed name and the
remaining input. -/
def matchVarname (s : List Char) : Option (List Char × List Char) :=
  match s with
  | [] => Option.none
  | c :: rest =>
    if isVarStart c then some (c :: rest.takeWhile isVarChar, rest.dropWhile isVarChar)
    else Option.none

/-- One chunk of the safe-expression star: either an attribute access
`\s* \. \s* varname \s*` or an item access `\s* \[ [^\[\]]+ \] \s*`
(mutually exclusive on the first non-space character). -/
def matchChunk (s : List Char) : Option (List Char × List Char) :=
  let ws1 := s.takeWhile isPySpace
  let r1 := s.dropWhile isPySpace
  match r1 with
  | '.' :: r2 =>
    let ws2 := r2.takeWhile isPySpace
    let r3 := r2.dropWhile isPySpace
    match matchVarname r3 with
    | some (nm, r4) =>
      some (ws1 ++ '.' :: (ws2 ++ nm ++ r4.takeWhile isPySpace), r4.dropWhile isPySpace)
    | Option.none => Option.none
  | '[' :: r2 =>
    let body := r2.takeWhile (fun c => !(c = '[') && !(c = ']'))
    let r3 := r2.dropWhile (fun c => !(c = '[') && !(c = ']'))
    match r3 with
    | ']' :: r4 =>
      if body.isEmpty then Option.none
      else some (ws1 ++ '[' :: (body ++ ']' :: r4.takeWhile isPySpace), r4.dropWhile isPySpace)
    | _ => Option.none
  | _ => Option.none

/-- All backtracking states of the greedy chunk star, most chunks first.
Each state is (group-1 content so far, remaining input). -/
def exprStates : Nat → List Char → List Char → List (List Char × List Char)
  | 0, acc, rest => [(acc, rest)]
  | fuel + 1, acc, rest =>
    match matchChunk rest with
    | some (tk, r2) => exprStates fuel (acc ++ tk) r2 ++ [(acc, rest)]
    | Option.none => [(acc, rest)]

/-- All states of the `expression` group matched at the start of `s`:
varname, trailing whitespace, then the chunk star. -/
def matchExpressionAt (s : List Char) : List (List Char × List Char) :=
  match matchVarname s with
  | some (nm, r) =>
    exprStates r.length (nm ++ r.takeWhile isPySpace) (r.dropWhile isPySpace)
  | Option.none => []

/-- Python `$` without `re.MULTILINE`: end of input, or just before a
single trailing newline. -/
def dollarEnd (rest : List Char) : Bool := rest.isEmpty || rest = ['\n']

/-- Tail of `item_lookup_pattern` after the expression group:
`\[ \s* ([^\[\]]*) $`; returns the captured partial key. -/
def itemTail (stRest : List Char) : Option (List Char) :=
  match stRest with
  | '[' :: r2 =>
    let r3 := r2.dropWhile isPySpace
    let key := r3.takeWhile (fun c => !(c = '[') && !(c = ']'))
    let r4 := r3.dropWhile (fun c => !(c = '[') && !(c = ']'))
    if dollarEnd r4 then some key else Option.none
  | _ => Option.none

/-- Tail of `attribute_lookup_pattern` after the expression group:
`\. \s* ([a-zA-Z0-9_]*) $`; returns the captured partial name. -/
def attrTail (stRest : List Char) : Option (List Char) :=
  match stRest with
  | '.' :: r2 =>
    let r3 := r2.dropWhile isPySpace
    let frag := r3.takeWhile isVarChar
    let r4 := r3.dropWhile isVarChar
    if dollarEnd r4 then some frag else Option.none
  | _ => Option.none

/-- `re.search` driver for `expression` followed by a pattern tail:
try each starting position from the left; at one position try the
backtracking states greedily. -/
def searchWithTail (tail : List Char → Option (List Char)) : List Char → Option (String × String)
  | [] => Option.none
  | s@(_ :: rest) =>
    match (matchExpressionAt s).findSome? (fun st =>
        match tail st.2 with
        | some frag => some (String.mk st.1, String.mk frag)
        | Option.none => Option.none) with
    | some res => some res
    | Option.none => searchWithTail tail rest

/-- `self.item_lookup_pattern.search(text)`: the two captured groups. -/
def item_lookup_search (text : String) : Option (String × String) :=
  searchWithTail itemTail text.data

/-- `self.attribute_lookup_pattern.search(text)`: the two captured groups. -/
def attribute_lookup_search (text : String) : Option (String × String) :=
  searchWithTail attrTail text.data

def exprSearchAux : List Char → Option String
  | [] => Option.none
  | s@(_ :: rest) =>
    match (matchExpressionAt s).findSome? (fun st =>
        if dollarEnd st.2 then some (String.mk st.1) else Option.none) with
    | some r => some r
    | Option.none => exprSearchAux rest

/-- `self.expression_pattern.search(text)`: the expression group. -/
def expression_search (text : String) : Option String :=
  exprSearchAux text.data

/-- Match `for \s+ ([a-zA-Z0-9_]+) \s+ in \s+ expression \s* :` at the
start of `s`; returns the loop-variable group, the expression group and
the rest of the input after the match. -/
def forMatchAt (s : List Char) : Option (String × String × List Char) :=
  match s with
  | 'f' :: 'o' :: 'r' :: r1 =>
    if (r1.takeWhile isPySpace).isEmpty then Option.none else
    let r2 := r1.dropWhile isPySpace
    let nm := r2.takeWhile isVarChar
    if nm.isEmpty then Option.none else
    let r3 := r2.dropWhile isVarChar
    if (r3.takeWhile isPySpace).isEmpty then Option.none else
    match r3.dropWhile isPySpace with
    | 'i' :: 'n' :: r4 =>
      if (r4.takeWhile isPySpace).isEmpty then Option.none else
      let r5 := r4.dropWhile isPySpace
      (matchExpressionAt r5).findSome? (fun st =>
        match st.2 with
        | ':' :: r6 => some (String.mk nm, String.mk st.1, r6)
        | _ => Option.none)
    | _ => Option.none
  | _ => Option.none

def forFindAux : Nat → List Char → List (String × String)
  | 0, _ => []
  | _, [] => []
  | fuel + 1, s@(_ :: rest) =>
    match forMatchAt s with
    | some (nm, ex, r6) => (nm, ex) :: forFindAux fuel r6
    | Option.none => forFindAux fuel rest

/-- `self.for_loop_pattern.finditer(text)`: successive non-overlapping
leftmost matches; each match contributes its two groups. -/
def for_loop_finditer (text : String) : List (String × String) :=
  forFindAux text.data.length text.data

/-! ## The completion generators of `DictionaryCompleter` -/

/-- The candidate record produced by the completer (`prompt_toolkit`'s
`Completion(text, start_position, display=..., display_meta=...)`);
`display = none` stands for the default display (the text itself). -/
structure Completion where
  text : String
  start_position : Int := 0
  display : Option String := Option.none
  display_meta : Option String := Option.none
  deriving Repr, DecidableEq

/-- Python `s.startswith(p)` for a string argument. -/
def pyStartswithStr (s p : String) : Bool := p.data.isPrefixOf s.data

/-- Python `s.startswith(arg)`: defined for a string argument, raises a
`TypeError` (modelled as `error`) for any other argument type. -/
def pyStartswith (s : String) (arg : PyVal) : Except Unit Bool :=
  match arg with
  | PyVal.str p => Except.ok (pyStartswithStr s p)
  | _ => Except.error ()

/-- Modelled from the spec: the host `ast.literal_eval` restricted to
the literal forms exercised here — non-empty all-digit strings parse as
integers, and a quote-delimited string with no inner quote or backslash
parses as that string; everything else raises (`SyntaxError` or
`ValueError`, both modelled as `error`). -/
def literalEval (s : String) : Except Unit PyVal :=
  let cs := s.data
  if !cs.isEmpty && cs.all (fun c => '0' ≤ c && c ≤ '9') then
    Except.ok (PyVal.int (cs.foldl (fun a c => a * 10 + ((c.toNat : Int) - ('0'.toNat : Int))) 0))
  else
    match cs with
    | q :: rest =>
      if (q = '\'' || q = '"') && !rest.isEmpty && rest.getLast? = some q
          && rest.dropLast.all (fun c => !(c = q) && !(c = '\\')) then
        Except.ok (PyVal.str (String.mk rest.dropLast))
      else Except.error ()
    | [] => Except.error ()

/-- The key-parsing loop of `_get_item_lookup_completions`: try
`key`, `key + '"'`, `key + "'"` through `ast.literal_eval`, keeping the
first success; on total failure the key object stays the raw string. -/
def keyObjOf (key : String) : PyVal :=
  match literalEval key with
  | Except.ok v => v
  | Except.error _ =>
    match literalEval (key.push '"') with
    | Except.ok v => v
    | Except.error _ =>
      match literalEval (key.push '\'') with
      | Except.ok v => v
      | Except.error _ => PyVal.str key

/-- The key loop of the mapping branch of
`_get_item_lookup_completions`: for each entry, `str(k).startswith(key_obj)`
(which raises when `key_obj` is not a string — this propagates), then a
`try`-guarded yield whose repr failures skip just that candidate. -/
def dictKeyCands (H : Host) (key_obj : PyVal) (key : String) :
    List (PyVal × PyVal) → Except Unit (List Completion)
  | [] => Except.ok []
  | (k, v) :: rest =>
    match pyStartswith (H.strF k) key_obj with
    | Except.error e => Except.error e
    | Except.ok b =>
      match dictKeyCands H key_obj key rest with
      | Except.error e => Except.error e
      | Except.ok tail =>
        if b then
          match H.reprF k with
          | some krepr =>
            match H.reprF v with
            | some vrepr =>
              Except.ok (⟨krepr ++ "]", -(key.length : Int),
                some ("[" ++ krepr ++ "]"), some vrepr⟩ :: tail)
            | Option.none => Except.ok tail
          | Option.none => Except.ok tail
        else Except.ok tail

/-- The index loop of the sequence branch of
`_get_item_lookup_completions`, over `range(min(len(result), 1000))`. -/
def seqIndexCands (H : Host) (key : String) (xs : List PyVal) : List Nat → List Completion
  | [] => []
  | k :: ks =>
    let rest := seqIndexCands H key xs ks
    if pyStartswithStr (H.strF (PyVal.int k)) key then
      match H.reprF (PyVal.int k) with
      | some krepr =>
        match H.reprF (xs.getD k PyVal.none) with
        | some vrepr =>
          ⟨krepr ++ "]", -(key.length : Int), some ("[" ++ krepr ++ "]"), some vrepr⟩ :: rest
        | Option.none => rest
      | Option.none => rest
    else rest

/-- Python `str.isdigit` (ASCII digits). -/
def pyIsdigitStr (s : String) : Bool :=
  !s.data.isEmpty && s.data.all (fun c => '0' ≤ c && c ≤ '9')

/-- Embedding of `DictionaryCompleter._get_item_lookup_completions`. -/
def get_item_lookup_completions (H : Host) (text : String) (g tl : Env) :
    Except Unit (List Completion) :=
  match item_lookup_search text with
  | Option.none => Except.ok []
  | some (object_var, key) =>
    match lookup H object_var g tl with
    | PyVal.dict entries => dictKeyCands H (keyObjOf key) key entries
    | PyVal.list xs =>
      if key.data.isEmpty || pyIsdigitStr key then
        Except.ok (seqIndexCands H key xs (List.range (min xs.length 1000)))
      else Except.ok []
    | PyVal.tuple xs =>
      if key.data.isEmpty || pyIsdigitStr key then
        Except.ok (seqIndexCands H key xs (List.range (min xs.length 1000)))
      else Except.ok []
    | _ => Except.ok []

/-- The sort key of `_sort_attribute_names`: double-underscore names
last, single-underscore names before them, other names first. -/
def pyRankUnderscore (name : String) : Nat :=
  if pyStartswithStr name ("__") then 2 else if pyStartswithStr name ("_") then 1 else 0

/-- Code-point lexicographic `<` on strings (Python string comparison). -/
def strLtL : List Char → List Char → Bool
  | [], [] => false
  | [], _ :: _ => true
  | _ :: _, [] => false
  | a :: as, b :: bs =>
    if a.toNat < b.toNat then true
    else if b.toNat < a.toNat then false
    else strLtL as bs

def attrNameLe (a b : String) : Bool :=
  decide (pyRankUnderscore a < pyRankUnderscore b)
    || (decide (pyRankUnderscore a = pyRankUnderscore b)
        && (strLtL a.data b.data || decide (a = b)))

def insertSortedAttr (x : String) : List String → List String
  | [] => [x]
  | y :: ys => if attrNameLe x y then x :: y :: ys else y :: insertSortedAttr x ys

/-- Embedding of `DictionaryCompleter._sort_attribute_names`: Python's
stable `sorted` by the key `(underscore rank, name)`, realised as a
stable insertion sort (for a total preorder the stable sorted result is
unique, so this agrees with any stable sort the host uses). -/
def sortAttributeNames (names : List String) : List String :=
  names.foldr insertSortedAttr []

/-- The yield loop of `_get_attribute_completions` applied to an
attribute list: all sorted names extending the partial fragment. -/
def attrCandidates (names : List String) (attr_name : String) : List Completion :=
  (sortAttributeNames names).filterMap (fun name =>
    if pyStartswithStr name attr_name then
      some ⟨name, -(attr_name.length : Int), Option.none, Option.none⟩
    else Option.none)

/-- Embedding of `DictionaryCompleter._get_attribute_completions`. -/
def get_attribute_completions (H : Host) (text : String) (g tl : Env) : List Completion :=
  match attribute_lookup_search text with
  | Option.none => []
  | some (object_var, attr_name) =>
    attrCandidates (H.dirF (lookup H object_var g tl)) attr_name

/-- Embedding of `DictionaryCompleter._get_expression_completions`. -/
def get_expression_completions (H : Host) (text : String) (g tl : Env) : List Completion :=
  match expression_search text with
  | Option.none => []
  | some object_var =>
    match lookup H object_var g tl with
    | PyVal.list _ => [⟨"[", 0, Option.none, Option.none⟩]
    | PyVal.tuple _ => [⟨"[", 0, Option.none, Option.none⟩]
    | PyVal.dict _ => [⟨"[", 0, Option.none, Option.none⟩]
    | r => if pyTruthy r then [⟨".", 0, Option.none, Option.none⟩] else []

/-- One step of the for-loop binder of
`DictionaryCompleter.get_completions`: resolve the iterated expression;
when it is a non-empty list or tuple, bind the loop variable to its
first element. -/
def forStep (H : Host) (g tl : Env) (m : String × String) : Env :=
  match lookup H m.2 g tl with
  | PyVal.list (x :: _) => (m.1, x) :: tl
  | PyVal.tuple (x :: _) => (m.1, x) :: tl
  | _ => tl

/-- The scratch environment built by `DictionaryCompleter.get_completions`
from a copy of the locals and the for-loop matches, in order. -/
def buildTempLocals (H : Host) (text : String) (g l : Env) : Env :=
  (for_loop_finditer text).foldl (fun tl m => forStep H g tl m) l

/-- Embedding of `DictionaryCompleter.get_completions`: the scratch
environment, then the three sub-generators in source order.  An
uncaught exception in the item-lookup generator aborts the stream. -/
def dict_get_completions (H : Host) (text : String) (g l : Env) :
    Except Unit (List Completion) :=
  let tl := buildTempLocals H text g l
  match get_item_lookup_completions H text g tl with
  | Except.ok b =>
    Except.ok (get_expression_completions H text g tl ++ b
      ++ get_attribute_completions H text g tl)
  | Except.error e => Except.error e

/-! ## The aggregator `PythonCompleter.get_completions` -/

/-- Python `needle in haystack` for strings (substring containment). -/
def isSubstrOf (n : List Char) : List Char → Bool
  | [] => n.isEmpty
  | h@(_ :: t) => n.isPrefixOf h || isSubstrOf n t

def pyInStr (needle haystack : String) : Bool := isSubstrOf needle.data haystack.data

/-- The request-level inputs of `PythonCompleter.get_completions` that
come from external collaborators: the feature flag, the complete-event,
the two while-typing predicates on the document, the path completer's
output, the truthiness of `_path_completer_grammar.match`, and the
translated oracle output. -/
structure AggInput where
  enableDict : Bool
  completionRequested : Bool
  pathWhileTyping : Bool
  pythonWhileTyping : Bool
  pathCompletions : List Completion
  grammarMatches : Bool
  jediCompletions : List Completion

/-- Embedding of `PythonCompleter.get_completions`: dictionary
completions (when enabled) with the `has_dict_completions` flag set by
any candidate whose text is not a substring of `"[."`; then path
completions; then, unless the grammar matched, the oracle completions. -/
def python_get_completions (H : Host) (inp : AggInput) (text : String) (g l : Env) :
    Except Unit (List Completion) :=
  match (if inp.enableDict then dict_get_completions H text g l else Except.ok []) with
  | Except.error e => Except.error e
  | Except.ok ds =>
    let hasDict := ds.any (fun c => !(pyInStr c.text ("[.")))
    if hasDict then Except.ok ds
    else
      let pathPart :=
        if inp.completionRequested || inp.pathWhileTyping then inp.pathCompletions else []
      if inp.grammarMatches then Except.ok (ds ++ pathPart)
      else
        let jediPart :=
          if inp.completionRequested || inp.pythonWhileTyping then inp.jediCompletions else []
        Except.ok (ds ++ pathPart ++ jediPart)

/-- Whether the control flow of `PythonCompleter.get_completions`
reaches the oracle (Jedi) delegation block for this request. -/
def jedi_invoked (H : Host) (inp : AggInput) (text : String) (g l : Env) : Bool :=
  match (if inp.enableDict then dict_get_completions H text g l else Except.ok []) with
  | Except.error _ => false
  | Except.ok ds =>
    !(ds.any (fun c => !(pyInStr c.text ("[."))))
      && !inp.grammarMatches
      && (inp.completionRequested || inp.pythonWhileTyping)

/-! ## Concrete host instances for witnesses -/

/-- A small `str` builtin: exact on scalars, a fixed tag elsewhere. -/
def pyStrSimple : PyVal → String
  | PyVal.none => "None"
  | PyVal.int n => toString n
  | PyVal.str s => s
  | PyVal.obj tag => tag
  | PyVal.list _ => "[list]"
  | PyVal.tuple _ => "(tuple)"
  | PyVal.dict _ => "dict"

/-- A small `repr` builtin: exact on `None`, integers and
backslash/quote-free strings, raising elsewhere. -/
def pyReprSimple : PyVal → Option String
  | PyVal.none => some ("None")
  | PyVal.int n => some (toString n)
  | PyVal.str s =>
    if s.data.all (fun c => !(c = '\'') && !(c = '\\')) then
      some (String.mk ('\'' :: (s.data ++ ['\''])))
    else Option.none
  | _ => Option.none

/-- A small `dir` builtin; on `None` it returns the (non-empty) special
attribute names that CPython's `dir(None)` starts with. -/
def dirSimple : PyVal → List String
  | PyVal.none => ["__bool__", "__class__"]
  | PyVal.int _ => ["bit_length", "denominator", "__abs__"]
  | PyVal.obj _ => ["foo", "_bar", "__baz__"]
  | _ => ["__len__"]

def hostSimple : Host := ⟨evalVarName, pyStrSimple, pyReprSimple, dirSimple⟩

/-- A host whose evaluator raises on every expression (for example,
every name is undefined). -/
def hostFail : Host := ⟨fun _ _ _ => Except.error (), pyStrSimple, pyReprSimple, dirSimple⟩

/-! ## The path-completer grammar of `_create_path_completer_grammar`

The grammar string is compiled by the host's grammar compiler into the
Python regex (whitespace and grammar comments removed, groups made
non-capturing except the two variables, anchored, `re.DOTALL`):

`^(?:(?:[^'"#]|'''(?:[^'\\]|'(?!')|''(?!')|\\.])*'''`
`|"""(?:[^"\\]|"(?!")|""(?!^)|\\.])*"""|\#[^\n]*(?:\n|$)`
`|"(?!"")(?:[^"\\]|\\.)*"|'(?!'')(?:[^'\\]|\\.)*'))*`
`(?:'(?P<n0>(?:[^\n'\\]|\\.)*)|"(?P<n1>(?:[^\n"\\]|\\.)*))$`

The functions below are an executable recogniser of this regex's match
relation.  Each alternative scans deterministically except the
triple-quoted body, which can stop at several closings when the
two-quote alternative carries no quote lookahead (the double-quoted
style, whose `(?!^)` lookahead is modelled as always true: it can only
fail at offset 0, and the body always sits after a three-quote opener);
`tripleRests` therefore returns the list of possible suffixes.  `$`
matches at the end of input or just before one trailing newline. -/

/-- The current-string variable body `(?:[^\n q \\]|\\.)*` followed by
`$`: scan to the end, allowing a stop just before one trailing newline. -/
def varBodyToEnd (q : Char) : List Char → Bool
  | [] => true
  | [c] => if c = '\n' then true else if c = '\\' then false else !(c = q)
  | c1 :: c2 :: rest =>
    if c1 = '\\' then varBodyToEnd q rest
    else (!(c1 = q) && !(c1 = '\n')) && varBodyToEnd q (c2 :: rest)

/-- The quoted-string token body `(?:[^q\\]|\\.)*` followed by the
closing quote `q`; returns the suffix after the closing quote. -/
def strBody (q : Char) : List Char → Option (List Char)
  | [] => Option.none
  | [c] => if c = q then some [] else Option.none
  | c1 :: c2 :: rest =>
    if c1 = q then some (c2 :: rest)
    else if c1 = '\\' then strBody q rest
    else strBody q (c2 :: rest)

/-- The negative lookahead `(?!qq)` fails exactly when the next two
characters are both `q`. -/
def lookDouble (q : Char) (s : List Char) : Bool :=
  match s with
  | a :: b :: _ => a = q && b = q
  | _ => false

/-- The comment alternative `\#[^\n]*(?:\n|$)` after the `#`: the
possible suffixes (consuming the newline, or stopping at `$`). -/
def commentEnds (rest : List Char) : List (List Char) :=
  let r := rest.dropWhile (fun c => !(c = '\n'))
  (match r with
   | '\n' :: r2 => [r2]
   | _ => []) ++ (if r.isEmpty || r = ['\n'] then [r] else [])

/-- All suffixes after a complete triple-quoted token body and closing,
the input starting just after the three-quote opener.  `strict` is true
for the single-quote style, whose two-quote alternative `''(?!')`
cannot sit before a third quote; the double-quote style's `""(?!^)`
can, so scanning may continue past a closing. -/
def tripleRests (q : Char) (strict : Bool) : Nat → List Char → List (List Char)
  | 0, _ => []
  | fuel + 1, a :: b :: c :: rest =>
    if a = q && b = q && c = q then
      rest :: (if strict then [] else tripleRests q strict fuel (c :: rest))
    else if a = q && b = q then tripleRests q strict fuel (c :: rest)
    else if a = q then tripleRests q strict fuel (b :: c :: rest)
    else if a = '\\' then (if c = ']' then tripleRests q strict fuel rest else [])
    else tripleRests q strict fuel (b :: c :: rest)
  | _ + 1, _ => []

/-- Acceptance of the final current-string group with either quote. -/
def curAny (s : List Char) : Bool :=
  match s with
  | q :: rest => (q = '\'' || q = '"') && varBodyToEnd q rest
  | [] => false

/-- Acceptance of the final current-string group with the quote `q`
(the `var1` group for `'`, the `var2` group for `"`). -/
def curQ (q : Char) (s : List Char) : Bool :=
  match s with
  | c :: rest => c = q && varBodyToEnd q rest
  | [] => false

/-- The full-match recogniser: at each position either the final
current-string part accepts the whole suffix, or one prefix-token
alternative consumes and the recogniser continues.  `fuel` bounds the
recursion depth; every step consumes at least one character. -/
def grammarCoreW (cur : List Char → Bool) : Nat → List Char → Bool
  | 0, _ => false
  | fuel + 1, s =>
    cur s ||
    (match s with
     | [] => false
     | c :: rest =>
       if c = '#' then (commentEnds rest).any (grammarCoreW cur fuel)
       else if c = '\'' || c = '"' then
         ((match rest with
           | b :: d :: r3 =>
             (b = c && d = c)
               && (tripleRests c (c = '\'') (r3.length + 1) r3).any (grammarCoreW cur fuel)
           | _ => false)
          ||
          (!(lookDouble c rest)
            && (match strBody c rest with
                | some r => grammarCoreW cur fuel r
                | Option.none => false)))
       else grammarCoreW cur fuel rest)

/-- `bool(_path_completer_grammar.match(s))` with some choice of fuel. -/
def GrammarMatches (s : List Char) : Prop := ∃ fuel, grammarCoreW curAny fuel s = true

/-- The grammar matches `s` with the final string part captured in the
group of quote style `q`. -/
def GrammarClassifies (q : Char) (s : List Char) : Prop :=
  ∃ fuel, grammarCoreW (curQ q) fuel s = true

/-! ## Generative family of texts for the grammar claims

A text whose cursor sits inside a string is modelled as a sequence of
complete prefix tokens, the opening quote, and the partial string
content typed so far. -/

/-- One item of quoted-string content: a plain character or an escape
pair. -/
inductive SItem where
  | chr (c : Char)
  | esc (c : Char)

def renderS : SItem → List Char
  | .chr c => [c]
  | .esc c => ['\\', c]

def renderItems (items : List SItem) : List Char := (items.map renderS).flatten

/-- Validity of a content item inside quotes of style `q`: a plain
character is not the quote, not a backslash and not a newline; an
escape pair shields any character. -/
def SOK (q : Char) : SItem → Prop
  | .chr c => c ≠ q ∧ c ≠ '\\' ∧ c ≠ '\n'
  | .esc _ => True

/-- Triple-quoted region bodies (without backslashes): no three-quote
run, and no quote adjacent to the closing. -/
inductive TBody (q : Char) : List Char → Prop
  | nil : TBody q []
  | chr {c s} : c ≠ q → c ≠ '\\' → TBody q s → TBody q (c :: s)
  | one {c s} : c ≠ q → TBody q (c :: s) → TBody q (q :: c :: s)
  | two {c s} : c ≠ q → TBody q (c :: s) → TBody q (q :: q :: c :: s)

/-- A complete prefix token: a plain character, a newline-terminated
comment, a complete quoted string, or a complete triple-quoted region. -/
inductive PreTok where
  | plain (c : Char)
  | comment (body : List Char)
  | str (q : Char) (items : List SItem)
  | tri (q : Char) (body : List Char)

def renderTok : PreTok → List Char
  | .plain c => [c]
  | .comment b => '#' :: (b ++ ['\n'])
  | .str q items => q :: (renderItems items ++ [q])
  | .tri q b => q :: q :: q :: (b ++ [q, q, q])

def renderSeq (ts : List PreTok) : List Char := (ts.map renderTok).flatten

def headTok : PreTok → Char
  | .plain c => c
  | .comment _ => '#'
  | .str q _ => q
  | .tri q _ => q

def TokOK : PreTok → Prop
  | .plain c => c ≠ '\'' ∧ c ≠ '"' ∧ c ≠ '#'
  | .comment b => '\n' ∉ b
  | .str q items => (q = '\'' ∨ q = '"') ∧ ∀ i ∈ items, SOK q i
  | .tri q b => (q = '\'' ∨ q = '"') ∧ TBody q b

/-- An empty quoted string is not immediately followed by its own quote
character (a maximal-munch fact of honest tokenisations: three adjacent
quotes open a triple-quoted region instead). -/
def noEmptyClash : PreTok → Char → Prop
  | .str q items, next => items = [] → next ≠ q
  | _, _ => True

def nextOf : List PreTok → Char → Char
  | [], stop => stop
  | t :: _, _ => headTok t

/-- Validity of a prefix-token sequence followed by the character
`stop` (the opening quote of the current string, or of the current
triple-quoted region). -/
def SeqOK : List PreTok → Char → Prop
  | [], _ => True
  | t :: ts, stop => TokOK t ∧ noEmptyClash t (nextOf ts stop) ∧ SeqOK ts stop

/-- All triple-quoted regions among the tokens use the single-quote
style. -/
def OnlySQTri (ts : List PreTok) : Prop :=
  ∀ t ∈ ts, ∀ q b, t = PreTok.tri q b → q = '\''

/-- Whether three consecutive `q` occur as a contiguous substring. -/
def hasRun3 (q : Char) : List Char → Bool
  | a :: b :: c :: rest => (a = q && b = q && c = q) || hasRun3 q (b :: c :: rest)
  | _ => false

/-! ## Lemmas: escape/unescape round trip -/

theorem pyReplaceChar_cons (old : Char) (new : List Char) (c : Char) (rest : List Char) :
    pyReplaceChar old new (c :: rest)
      = (if c = old then new else [c]) ++ pyReplaceChar old new rest := rfl

theorem unwrapperL_cons_plain (c : Char) (t : List Char) (hc : c ≠ '\\') :
    unwrapperL (c :: t) = c :: unwrapperL t := by
  cases t with
  | nil => rfl
  | cons d rest2 =>
    show (if c = '\\' then _ else c :: unwrapperL (d :: rest2)) = _
    rw [if_neg hc]

theorem unwrapperL_esc (d : Char) (t : List Char) (hd : d ≠ '\n') :
    unwrapperL ('\\' :: d :: t) = d :: unwrapperL t := by
  show (if ('\\' : Char) = '\\' then (if d = '\n' then _ else d :: unwrapperL t) else _) = _
  rw [if_pos rfl, if_neg hd]

/-- Round trip at the list level: wrapping with quote character `q`
(which is neither a backslash nor a newline) and then unwrapping is the
identity. -/
theorem unwrap_wrap (q : Char) (hq1 : q ≠ '\\') (hq2 : q ≠ '\n') :
    ∀ s : List Char,
      unwrapperL (pyReplaceChar q ['\\', q] (pyReplaceChar '\\' ['\\', '\\'] s)) = s := by
  intro s
  induction s with
  | nil => rfl
  | cons c rest ih =>
    rw [pyReplaceChar_cons]
    by_cases hc : c = '\\'
    · subst hc
      rw [if_pos rfl]
      show unwrapperL (pyReplaceChar q ['\\', q]
        ('\\' :: '\\' :: pyReplaceChar '\\' ['\\', '\\'] rest)) = _
      rw [pyReplaceChar_cons, pyReplaceChar_cons, if_neg (fun h => hq1 h.symm)]
      show unwrapperL ('\\' :: '\\' :: _) = _
      rw [unwrapperL_esc _ _ (by decide)]
      exact congrArg (List.cons '\\') ih
    · rw [if_neg hc]
      by_cases hcq : c = q
      · subst hcq
        show unwrapperL (pyReplaceChar c ['\\', c]
          (c :: pyReplaceChar '\\' ['\\', '\\'] rest)) = _
        rw [pyReplaceChar_cons, if_pos rfl]
        show unwrapperL ('\\' :: c :: _) = _
        rw [unwrapperL_esc _ _ hq2]
        exact congrArg (List.cons c) ih
      · show unwrapperL (pyReplaceChar q ['\\', q]
          (c :: pyReplaceChar '\\' ['\\', '\\'] rest)) = _
        rw [pyReplaceChar_cons, if_neg hcq]
        show unwrapperL (c :: _) = _
        rw [unwrapperL_cons_plain _ _ hc]
        exact congrArg (List.cons c) ih

/-- C10.  For every fragment string, including fragments containing
backslashes and the active quote character, applying the quote-style
specific escape function (`single_quoted_wrapper` or
`double_quoted_wrapper`) and then the unescape function (`unwrapper`)
returns the original fragment unchanged. -/
theorem claim_C10_escape_roundtrip (s : String) :
    unwrapper (single_quoted_wrapper s) = s ∧ unwrapper (double_quoted_wrapper s) = s := by
  constructor
  · show String.mk (unwrapperL (single_quoted_wrapperL s.data)) = s
    rw [single_quoted_wrapperL, unwrap_wrap '\'' (by decide) (by decide)]
  · show String.mk (unwrapperL (double_quoted_wrapperL s.data)) = s
    rw [double_quoted_wrapperL, unwrap_wrap '"' (by decide) (by decide)]

/-! ## Lemmas: item-lookup completions -/

theorem dictKeyCands_str_eq (H : Host) (ks key : String) (entries : List (PyVal × PyVal)) :
    dictKeyCands H (PyVal.str ks) key entries
      = Except.ok (entries.filterMap (fun kv =>
          if pyStartswithStr (H.strF kv.1) ks then
            match H.reprF kv.1 with
            | some rk =>
              match H.reprF kv.2 with
              | some rv => some ⟨rk ++ "]", -(key.length : Int),
                  some ("[" ++ rk ++ "]"), some rv⟩
              | Option.none => Option.none
            | Option.none => Option.none
          else Option.none)) := by
  induction entries with
  | nil => rfl
  | cons kv rest ih =>
    obtain ⟨k, v⟩ := kv
    simp only [dictKeyCands, pyStartswith, ih, List.filterMap_cons]
    by_cases hb : pyStartswithStr (H.strF k) ks
    · rw [if_pos hb, if_pos hb]
      cases hrk : H.reprF k with
      | none => rfl
      | some rk =>
        cases hrv : H.reprF v with
        | none => rfl
        | some rv => rfl
    · rw [if_neg hb, if_neg hb]

theorem seqIndexCands_eq (H : Host) (key : String) (xs : List PyVal) (l : List Nat) :
    seqIndexCands H key xs l
      = l.filterMap (fun (k : Nat) =>
          if pyStartswithStr (H.strF (PyVal.int k)) key then
            match H.reprF (PyVal.int k) with
            | some rk =>
              match H.reprF (xs.getD k PyVal.none) with
              | some rv => some ⟨rk ++ "]", -(key.length : Int),
                  some ("[" ++ rk ++ "]"), some rv⟩
              | Option.none => Option.none
            | Option.none => Option.none
          else Option.none) := by
  induction l with
  | nil => rfl
  | cons k ks ih =>
    show (let rest := seqIndexCands H key xs ks
      if pyStartswithStr (H.strF (PyVal.int k)) key then
        match H.reprF (PyVal.int k) with
        | some krepr =>
          match H.reprF (xs.getD k PyVal.none) with
          | some vrepr =>
            ⟨krepr ++ "]", -(key.length : Int),
              some ("[" ++ krepr ++ "]"), some vrepr⟩ :: rest
          | Option.none => rest
        | Option.none => rest
      else rest) = _
    simp only [List.filterMap_cons, ih]
    by_cases hb : pyStartswithStr (H.strF (PyVal.int k)) key
    · rw [if_pos hb, if_pos hb]
      cases hrk : H.reprF (PyVal.int k) with
      | none => rfl
      | some rk =>
        cases hrv : H.reprF (xs.getD k PyVal.none) with
        | none => rfl
        | some rv => rfl
    · rw [if_neg hb, if_neg hb]

/-- C7.  When the item-lookup pattern matches and the expression
resolves to a mapping, and the (possibly literal-parsed) fragment is a
string, a candidate is yielded for exactly those keys whose string form
starts with the fragment, with insert text `repr(key) + "]"` replacing
the fragment and display meta the repr of the value at that key; a repr
failure on one key or value skips only that single candidate (only
entries whose two reprs succeed contribute). -/
theorem claim_C7_item_mapping (H : Host) (text object_var key ks : String)
    (g tl : Env) (entries : List (PyVal × PyVal))
    (hsearch : item_lookup_search text = some (object_var, key))
    (hres : lookup H object_var g tl = PyVal.dict entries)
    (hkey : keyObjOf key = PyVal.str ks) :
    ∃ cs, get_item_lookup_completions H text g tl = Except.ok cs
      ∧ ∀ c : Completion, c ∈ cs ↔ ∃ k v, (k, v) ∈ entries
          ∧ pyStartswithStr (H.strF k) ks = true
          ∧ ∃ rk rv, H.reprF k = some rk ∧ H.reprF v = some rv
            ∧ c = ⟨rk ++ "]", -(key.length : Int), some ("[" ++ rk ++ "]"), some rv⟩ := by
  have hcomp : get_item_lookup_completions H text g tl
      = dictKeyCands H (PyVal.str ks) key entries := by
    simp only [get_item_lookup_completions, hsearch, hres, hkey]
  rw [hcomp, dictKeyCands_str_eq]
  refine ⟨_, rfl, fun c => ?_⟩
  rw [List.mem_filterMap]
  constructor
  · rintro ⟨⟨k, v⟩, hmem, hf⟩
    refine ⟨k, v, hmem, ?_⟩
    by_cases hb : pyStartswithStr (H.strF k) ks
    · refine ⟨hb, ?_⟩
      rw [if_pos hb] at hf
      cases hrk : H.reprF k with
      | none => rw [hrk] at hf; exact absurd hf (by simp)
      | some rk =>
        rw [hrk] at hf
        cases hrv : H.reprF v with
        | none => rw [hrv] at hf; exact absurd hf (by simp)
        | some rv =>
          rw [hrv] at hf
          exact ⟨rk, rv, rfl, rfl, (Option.some_inj.mp hf).symm⟩
    · rw [if_neg hb] at hf
      exact absurd hf (by simp)
  · rintro ⟨k, v, hmem, hb, rk, rv, hrk, hrv, rfl⟩
    refine ⟨(k, v), hmem, ?_⟩
    rw [if_pos hb, hrk, hrv]

/-- Witness for C7: the spec's example, environment
`{"d": {"a": 1, "bb": 2}}` and input `d[`. -/
theorem claim_C7_item_mapping_witness :
    item_lookup_search ("d[") = some ("d", "")
    ∧ (∃ cs, get_item_lookup_completions hostSimple ("d[")
          [("d", PyVal.dict [(PyVal.str "a", PyVal.int 1), (PyVal.str "bb", PyVal.int 2)])] []
        = Except.ok cs
      ∧ ∀ c : Completion, c ∈ cs ↔ ∃ k v,
          (k, v) ∈ [(PyVal.str "a", PyVal.int 1), (PyVal.str "bb", PyVal.int 2)]
          ∧ pyStartswithStr (hostSimple.strF k) "" = true
          ∧ ∃ rk rv, hostSimple.reprF k = some rk ∧ hostSimple.reprF v = some rv
            ∧ c = ⟨rk ++ "]", -(("" : String).length : Int),
                some ("[" ++ rk ++ "]"), some rv⟩) :=
  ⟨by decide, claim_C7_item_mapping hostSimple ("d[") "d" "" ""
    [("d", PyVal.dict [(PyVal.str "a", PyVal.int 1), (PyVal.str "bb", PyVal.int 2)])] []
    [(PyVal.str "a", PyVal.int 1), (PyVal.str "bb", PyVal.int 2)]
    (by decide) rfl rfl⟩

/-- C8.  When the item-lookup pattern matches, the expression resolves
to a list or tuple, the partial fragment is empty or all digits, and
the host `str`/`repr` builtins are decimal on integers, candidates are
yielded for exactly the indices `k` below `min(length, 1000)` whose
decimal form starts with the fragment. -/
theorem claim_C8_item_sequence (H : Host) (text object_var key : String)
    (g tl : Env) (xs : List PyVal)
    (hsearch : item_lookup_search text = some (object_var, key))
    (hres : lookup H object_var g tl = PyVal.list xs
      ∨ lookup H object_var g tl = PyVal.tuple xs)
    (hkey : (key.data.isEmpty || pyIsdigitStr key) = true)
    (hstr : ∀ k : Nat, H.strF (PyVal.int k) = toString k)
    (hrepr : ∀ k : Nat, H.reprF (PyVal.int k) = some (toString k)) :
    ∃ cs, get_item_lookup_completions H text g tl = Except.ok cs
      ∧ ∀ c : Completion, c ∈ cs ↔ ∃ k, k < min xs.length 1000
          ∧ pyStartswithStr (toString k) key = true
          ∧ ∃ rv, H.reprF (xs.getD k PyVal.none) = some rv
            ∧ c = ⟨toString k ++ "]", -(key.length : Int),
                some ("[" ++ toString k ++ "]"), some rv⟩ := by
  have hcomp : get_item_lookup_completions H text g tl
      = Except.ok (seqIndexCands H key xs (List.range (min xs.length 1000))) := by
    rcases hres with h | h <;>
      simp only [get_item_lookup_completions, hsearch, h, if_pos hkey]
  rw [hcomp, seqIndexCands_eq]
  refine ⟨_, rfl, fun c => ?_⟩
  rw [List.mem_filterMap]
  constructor
  · rintro ⟨k, hmem, hf⟩
    rw [List.mem_range] at hmem
    rw [hstr k, hrepr k] at hf
    by_cases hb : pyStartswithStr (toString k) key
    · rw [if_pos hb] at hf
      refine ⟨k, hmem, hb, ?_⟩
      cases hrv : H.reprF (xs.getD k PyVal.none) with
      | none => rw [hrv] at hf; exact absurd hf (by simp)
      | some rv =>
        rw [hrv] at hf
        exact ⟨rv, rfl, (Option.some_inj.mp hf).symm⟩
    · rw [if_neg hb] at hf
      exact absurd hf (by simp)
  · rintro ⟨k, hmem, hb, rv, hrv, rfl⟩
    refine ⟨k, List.mem_range.mpr hmem, ?_⟩
    rw [hstr k, hrepr k, if_pos hb, hrv]

/-- Witness for C8: the spec's example, environment
`{"xs": [10, 20, 30]}` and input `xs[1`. -/
theorem claim_C8_item_sequence_witness :
    item_lookup_search ("xs[1") = some ("xs", "1")
    ∧ (∃ cs, get_item_lookup_completions hostSimple ("xs[1")
          [("xs", PyVal.list [PyVal.int 10, PyVal.int 20, PyVal.int 30])] []
        = Except.ok cs
      ∧ ∀ c : Completion, c ∈ cs ↔ ∃ k,
          k < min ([PyVal.int 10, PyVal.int 20, PyVal.int 30] : List PyVal).length 1000
          ∧ pyStartswithStr (toString k) "1" = true
          ∧ ∃ rv, hostSimple.reprF
                (([PyVal.int 10, PyVal.int 20, PyVal.int 30] : List PyVal).getD k PyVal.none)
              = some rv
            ∧ c = ⟨toString k ++ "]", -(("1" : String).length : Int),
                some ("[" ++ toString k ++ "]"), some rv⟩) :=
  ⟨by decide, claim_C8_item_sequence hostSimple ("xs[1") "xs" "1"
    [("xs", PyVal.list [PyVal.int 10, PyVal.int 20, PyVal.int 30])] []
    [PyVal.int 10, PyVal.int 20, PyVal.int 30]
    (by decide) (Or.inl rfl) (by decide) (fun k => rfl) (fun k => rfl)⟩

/-! ## The `d[1` type error (C2) -/

/-- C2 (evaluation at the failing input).  With `d` bound to a
non-empty mapping and input `d[1`, the fragment parses as the integer
`1`, and the item-lookup generator raises (`str(k).startswith(1)` is a
`TypeError`), so the structural completion path aborts with an
exception instead of completing without error. -/
theorem claim_C2_failing_eval :
    keyObjOf "1" = PyVal.int 1
    ∧ get_item_lookup_completions hostSimple ("d[1")
        [("d", PyVal.dict [(PyVal.str "a", PyVal.int 1)])] [] = Except.error ()
    ∧ dict_get_completions hostSimple ("d[1")
        [("d", PyVal.dict [(PyVal.str "a", PyVal.int 1)])] [] = Except.error ()
    ∧ python_get_completions hostSimple
        ⟨true, true, false, false, [], false, []⟩ ("d[1")
        [("d", PyVal.dict [(PyVal.str "a", PyVal.int 1)])] [] = Except.error () :=
  ⟨rfl, rfl, rfl, rfl⟩

/-! ## The aggregator and the oracle gate (C9, C5) -/

/-- C9.  Whenever the lexical grammar reports the cursor as inside a
string (`grammarMatches = true`, the truthiness of
`_path_completer_grammar.match(text_before_cursor)`), the control flow
of `PythonCompleter.get_completions` never reaches the oracle (Jedi)
delegation block. -/
theorem claim_C9_no_oracle_in_string (H : Host) (inp : AggInput) (text : String)
    (g l : Env) (h : inp.grammarMatches = true) :
    jedi_invoked H inp text g l = false := by
  unfold jedi_invoked
  cases hd : (if inp.enableDict then dict_get_completions H text g l else Except.ok []) with
  | error e => rfl
  | ok ds => simp [h]

/-- Witness for C9 at a concrete request. -/
theorem claim_C9_no_oracle_in_string_witness :
    (({ enableDict := false, completionRequested := true, pathWhileTyping := false,
        pythonWhileTyping := true, pathCompletions := [], grammarMatches := true,
        jediCompletions := [⟨"x", 0, Option.none, Option.none⟩] } : AggInput).grammarMatches
      = true)
    ∧ jedi_invoked hostSimple
        { enableDict := false, completionRequested := true, pathWhileTyping := false,
          pythonWhileTyping := true, pathCompletions := [], grammarMatches := true,
          jediCompletions := [⟨"x", 0, Option.none, Option.none⟩] } ("'abc") [] [] = false :=
  ⟨rfl, claim_C9_no_oracle_in_string hostSimple _ ("'abc") [] [] rfl⟩

/-! ## Resolution failure behaviour (C1) -/

/-- Counterexample to C1 as stated: on input `qq.` with an empty
environment the evaluation of the matched expression `qq` raises, yet
the attribute-lookup sub-behaviour yields the attributes of the `None`
placeholder (`dir(None)` is non-empty in the host), not zero
candidates. -/
theorem claim_C1_counterexample :
    evalVarName ("qq") [] [] = Except.error ()
    ∧ attribute_lookup_search ("qq.") = some ("qq", "")
    ∧ get_attribute_completions hostSimple ("qq.") [] []
        = [⟨"__bool__", 0, Option.none, Option.none⟩,
           ⟨"__class__", 0, Option.none, Option.none⟩]
    ∧ get_attribute_completions hostSimple ("qq.") [] [] ≠ [] :=
  ⟨rfl, by decide, rfl, by decide⟩

/-- C1 (amended).  When every evaluation of the request raises, the
trigger and item-lookup sub-behaviours yield zero candidates, the
attribute-lookup sub-behaviour computes its candidates from the
attribute list of the `None` placeholder (so from `dir(None)`), and no
sub-behaviour aborts the others: the whole dictionary-completion stream
is exactly the attribute part. -/
theorem claim_C1_amended (H : Host) (text : String) (g l : Env)
    (hfail : ∀ e tl, H.ev e g tl = Except.error ()) :
    get_expression_completions H text g (buildTempLocals H text g l) = []
    ∧ get_item_lookup_completions H text g (buildTempLocals H text g l) = Except.ok []
    ∧ (∀ ov frag, attribute_lookup_search text = some (ov, frag) →
        get_attribute_completions H text g (buildTempLocals H text g l)
          = attrCandidates (H.dirF PyVal.none) frag)
    ∧ dict_get_completions H text g l
        = Except.ok (get_attribute_completions H text g (buildTempLocals H text g l)) := by
  have hlook : ∀ ov tl, lookup H ov g tl = PyVal.none := by
    intro ov tl
    unfold lookup
    rw [hfail]
  have hexpr : get_expression_completions H text g (buildTempLocals H text g l) = [] := by
    unfold get_expression_completions
    cases hs : expression_search text with
    | none => rfl
    | some ov =>
      simp only [hlook]
      rfl
  have hitem : get_item_lookup_completions H text g (buildTempLocals H text g l)
      = Except.ok [] := by
    unfold get_item_lookup_completions
    cases hs : item_lookup_search text with
    | none => rfl
    | some p =>
      obtain ⟨ov, key⟩ := p
      simp only [hlook]
  refine ⟨hexpr, hitem, fun ov frag hs => ?_, ?_⟩
  · simp only [get_attribute_completions, hs, hlook]
  · simp only [dict_get_completions, hitem, hexpr, List.nil_append]

/-- Witness for the amended C1 at a concrete failing request. -/
theorem claim_C1_amended_witness :
    (∀ e tl, hostFail.ev e [] tl = Except.error ())
    ∧ (get_expression_completions hostFail ("qq.") [] (buildTempLocals hostFail ("qq.") [] []) = []
      ∧ get_item_lookup_completions hostFail ("qq.") []
          (buildTempLocals hostFail ("qq.") [] []) = Except.ok []
      ∧ (∀ ov frag, attribute_lookup_search ("qq.") = some (ov, frag) →
          get_attribute_completions hostFail ("qq.") []
              (buildTempLocals hostFail ("qq.") [] [])
            = attrCandidates (hostFail.dirF PyVal.none) frag)
      ∧ dict_get_completions hostFail ("qq.") [] []
          = Except.ok (get_attribute_completions hostFail ("qq.") []
              (buildTempLocals hostFail ("qq.") [] []))) :=
  ⟨fun _ _ => rfl, claim_C1_amended hostFail ("qq.") [] [] (fun _ _ => rfl)⟩

/-! ## The for-loop binder (C6) -/

/-- C6.  A `for NAME in EXPR:` match whose expression resolves (against
the globals and the bindings accumulated so far) to a non-empty list or
tuple binds NAME to the first element in the scratch environment; and
on the spec's example — `for x in xs:` then `x.` with
`xs = [10, 20, 30]` — the scratch environment binds `x` to `10` and the
attribute completions are computed from `10`'s attribute set (for every
host attribute oracle `d`), not from the list's. -/
theorem claim_C6_for_loop_binding :
    (∀ (H : Host) (g tl : Env) (nm e : String) (x : PyVal) (rest : List PyVal),
      lookup H e g tl = PyVal.list (x :: rest) → forStep H g tl (nm, e) = (nm, x) :: tl)
    ∧ (∀ (H : Host) (g tl : Env) (nm e : String) (x : PyVal) (rest : List PyVal),
      lookup H e g tl = PyVal.tuple (x :: rest) → forStep H g tl (nm, e) = (nm, x) :: tl)
    ∧ (∀ (strF : PyVal → String) (reprF : PyVal → Option String) (d : PyVal → List String),
      buildTempLocals ⟨evalVarName, strF, reprF, d⟩ ("for x in xs:\nx.")
          [("xs", PyVal.list [PyVal.int 10, PyVal.int 20, PyVal.int 30])] []
        = [("x", PyVal.int 10)]
      ∧ dict_get_completions ⟨evalVarName, strF, reprF, d⟩ ("for x in xs:\nx.")
          [("xs", PyVal.list [PyVal.int 10, PyVal.int 20, PyVal.int 30])] []
        = Except.ok (attrCandidates (d (PyVal.int 10)) "")) := by
  refine ⟨?_, ?_, ?_⟩
  · intro H g tl nm e x rest h
    unfold forStep
    rw [h]
  · intro H g tl nm e x rest h
    unfold forStep
    rw [h]
  · intro strF reprF d
    exact ⟨rfl, rfl⟩

/-- Witness for C6 at the spec's example with the concrete host. -/
theorem claim_C6_for_loop_binding_witness :
    lookup hostSimple "xs" [("xs", PyVal.list [PyVal.int 10, PyVal.int 20, PyVal.int 30])] []
      = PyVal.list [PyVal.int 10, PyVal.int 20, PyVal.int 30]
    ∧ forStep hostSimple [("xs", PyVal.list [PyVal.int 10, PyVal.int 20, PyVal.int 30])] []
        ("x", "xs") = [("x", PyVal.int 10)] :=
  ⟨rfl, claim_C6_for_loop_binding.1 hostSimple
    [("xs", PyVal.list [PyVal.int 10, PyVal.int 20, PyVal.int 30])] [] "x" "xs"
    (PyVal.int 10) [PyVal.int 20, PyVal.int 30] rfl⟩

/-! ## Lemmas: substring test against the trigger characters (C5) -/

theorem pyInStr_bracketDot_cases (s : String) (h : pyInStr s ("[.") = true) :
    s = "" ∨ s = "[" ∨ s = "." ∨ s = "[." := by
  obtain ⟨n⟩ := s
  have h' : isSubstrOf n ['[', '.'] = true := h
  rcases n with _ | ⟨a, _ | ⟨b, _ | ⟨c, t⟩⟩⟩
  · exact Or.inl rfl
  · simp only [isSubstrOf, List.isPrefixOf, Bool.or_eq_true, Bool.and_eq_true,
      beq_iff_eq, List.isEmpty] at h'
    rcases h' with ⟨ha, -⟩ | ⟨ha, -⟩ | h'
    · subst ha; exact Or.inr (Or.inl rfl)
    · subst ha; exact Or.inr (Or.inr (Or.inl rfl))
    · exact absurd h' (by decide)
  · simp only [isSubstrOf, List.isPrefixOf, Bool.or_eq_true, Bool.and_eq_true,
      beq_iff_eq, List.isEmpty] at h'
    rcases h' with ⟨ha, hb, -⟩ | ⟨-, h'⟩ | h'
    · subst ha; subst hb; exact Or.inr (Or.inr (Or.inr rfl))
    · exact absurd h' (by decide)
    · exact absurd h' (by decide)
  · simp only [isSubstrOf, List.isPrefixOf, Bool.or_eq_true, Bool.and_eq_true,
      beq_iff_eq, List.isEmpty] at h'
    rcases h' with ⟨-, -, h'⟩ | ⟨-, h'⟩ | h' <;> exact absurd h' (by decide)

/-! ## Lemmas: shapes of the dictionary completer's candidate texts -/

theorem mem_insertSortedAttr (x a : String) (l : List String) :
    a ∈ insertSortedAttr x l ↔ a = x ∨ a ∈ l := by
  induction l with
  | nil => simp [insertSortedAttr]
  | cons y ys ih =>
    unfold insertSortedAttr
    by_cases h : attrNameLe x y
    · rw [if_pos h]
      simp [List.mem_cons]
    · rw [if_neg h]
      simp only [List.mem_cons, ih]
      tauto

theorem mem_sortAttributeNames (a : String) (names : List String) :
    a ∈ sortAttributeNames names ↔ a ∈ names := by
  unfold sortAttributeNames
  induction names with
  | nil => simp
  | cons n ns ih =>
    simp only [List.foldr_cons, mem_insertSortedAttr, ih, List.mem_cons]

theorem mem_attrCandidates (names : List String) (frag : String) (c : Completion)
    (hc : c ∈ attrCandidates names frag) : ∃ n ∈ names, c.text = n := by
  unfold attrCandidates at hc
  rw [List.mem_filterMap] at hc
  obtain ⟨n, hn, hf⟩ := hc
  by_cases h : pyStartswithStr n frag
  · rw [if_pos h] at hf
    exact ⟨n, (mem_sortAttributeNames n names).mp hn,
      by rw [← Option.some_inj.mp hf]⟩
  · rw [if_neg h] at hf
    cases hf

theorem mem_expr_completions_text (H : Host) (text : String) (g tl : Env) (c : Completion)
    (hc : c ∈ get_expression_completions H text g tl) :
    c.text = "[" ∨ c.text = "." := by
  unfold get_expression_completions at hc
  cases hs : expression_search text with
  | none => rw [hs] at hc; cases hc
  | some ov =>
    simp only [hs] at hc
    cases hv : lookup H ov g tl <;> simp only [hv] at hc <;>
      first
      | (rw [List.mem_singleton] at hc; rw [hc]; exact Or.inl rfl)
      | (split at hc <;>
          first
          | (rw [List.mem_singleton] at hc; rw [hc]; exact Or.inr rfl)
          | cases hc)

theorem appendBracket_ne (rk : String) :
    rk ++ "]" ≠ "" ∧ rk ++ "]" ≠ ("[.") := by
  obtain ⟨rkd⟩ := rk
  constructor
  · intro h
    have hd : rkd ++ [']'] = [] := congrArg String.data h
    exact absurd (List.append_eq_nil.mp hd).2 (by decide)
  · intro h
    have hd : rkd ++ [']'] = ['[', '.'] := congrArg String.data h
    rcases rkd with _ | ⟨x, _ | ⟨y, t⟩⟩
    · exact absurd (List.head_eq_of_cons_eq hd) (by decide)
    · injection hd with h1 h2
      injection h2 with h3 h4
      exact absurd h3 (by decide)
    · injection hd with h1 h2
      injection h2 with h3 h4
      exact absurd (List.append_eq_nil.mp h4).2 (by decide)

theorem dictKeyCands_text (H : Host) (ko : PyVal) (key : String) :
    ∀ (entries : List (PyVal × PyVal)) (cs : List Completion),
      dictKeyCands H ko key entries = Except.ok cs →
      ∀ c ∈ cs, ∃ rk, c.text = rk ++ "]" := by
  intro entries
  induction entries with
  | nil =>
    intro cs hcs c hc
    cases Except.ok.inj hcs
    cases hc
  | cons kv rest ih =>
    obtain ⟨k, v⟩ := kv
    intro cs hcs c hc
    unfold dictKeyCands at hcs
    cases hsw : pyStartswith (H.strF k) ko with
    | error e =>
      simp only [hsw] at hcs
      exact Except.noConfusion hcs
    | ok b =>
      simp only [hsw] at hcs
      cases hrest : dictKeyCands H ko key rest with
      | error e =>
        simp only [hrest] at hcs
        exact Except.noConfusion hcs
      | ok tail =>
        simp only [hrest] at hcs
        by_cases hb : b = true
        · rw [if_pos hb] at hcs
          cases hrk : H.reprF k with
          | none =>
            rw [hrk] at hcs
            cases Except.ok.inj hcs
            exact ih _ hrest c hc
          | some rk =>
            rw [hrk] at hcs
            cases hrv : H.reprF v with
            | none =>
              rw [hrv] at hcs
              cases Except.ok.inj hcs
              exact ih _ hrest c hc
            | some rv =>
              rw [hrv] at hcs
              cases Except.ok.inj hcs
              rcases List.mem_cons.mp hc with rfl | hc2
              · exact ⟨rk, rfl⟩
              · exact ih _ hrest c hc2
        · rw [if_neg hb] at hcs
          cases Except.ok.inj hcs
          exact ih _ hrest c hc

theorem item_completions_text (H : Host) (text : String) (g tl : Env)
    (cs : List Completion)
    (hcs : get_item_lookup_completions H text g tl = Except.ok cs) :
    ∀ c ∈ cs, ∃ rk, c.text = rk ++ "]" := by
  intro c hc
  unfold get_item_lookup_completions at hcs
  cases hs : item_lookup_search text with
  | none =>
    simp only [hs] at hcs
    cases Except.ok.inj hcs
    cases hc
  | some p =>
    obtain ⟨ov, key⟩ := p
    simp only [hs] at hcs
    cases hv : lookup H ov g tl <;> simp only [hv] at hcs
    case dict entries => exact dictKeyCands_text H (keyObjOf key) key entries cs hcs c hc
    case list xs | tuple xs =>
      · split at hcs
        · cases Except.ok.inj hcs
          rw [seqIndexCands_eq, List.mem_filterMap] at hc
          obtain ⟨k, hk, hf⟩ := hc
          by_cases hb : pyStartswithStr (H.strF (PyVal.int k)) key
          · rw [if_pos hb] at hf
            cases hrk : H.reprF (PyVal.int k) with
            | none => rw [hrk] at hf; cases hf
            | some rk =>
              rw [hrk] at hf
              cases hrv : H.reprF (xs.getD k PyVal.none) with
              | none => rw [hrv] at hf; cases hf
              | some rv =>
                rw [hrv] at hf
                exact ⟨rk, by rw [← Option.some_inj.mp hf]⟩
          · rw [if_neg hb] at hf; cases hf
        · cases Except.ok.inj hcs
          cases hc
    all_goals
      cases Except.ok.inj hcs
      cases hc

/-- Every candidate text produced by the dictionary completer is
non-empty and distinct from `"[."` (given that the host's attribute
names are). -/
theorem dict_text_sane (H : Host) (text : String) (g l : Env) (ds : List Completion)
    (hdir : ∀ v n, n ∈ H.dirF v → n ≠ "" ∧ n ≠ ("[."))
    (hds : dict_get_completions H text g l = Except.ok ds) :
    ∀ c ∈ ds, c.text ≠ "" ∧ c.text ≠ ("[.") := by
  intro c hc
  simp only [dict_get_completions] at hds
  cases hb : get_item_lookup_completions H text g (buildTempLocals H text g l) with
  | error e =>
    simp only [hb] at hds
    exact Except.noConfusion hds
  | ok b =>
    simp only [hb] at hds
    cases Except.ok.inj hds
    rcases List.mem_append.mp hc with hc1 | hc3
    · rcases List.mem_append.mp hc1 with hc1 | hc2
      · rcases mem_expr_completions_text H text g _ c hc1 with h | h <;> rw [h] <;>
          exact ⟨by decide, by decide⟩
      · obtain ⟨rk, hrk⟩ := item_completions_text H text g _ b hb c hc2
        rw [hrk]
        exact appendBracket_ne rk
    · unfold get_attribute_completions at hc3
      cases hs : attribute_lookup_search text with
      | none => rw [hs] at hc3; cases hc3
      | some p =>
        obtain ⟨ov, frag⟩ := p
        rw [hs] at hc3
        obtain ⟨n, hn, hcn⟩ := mem_attrCandidates _ frag c hc3
        rw [hcn]
        exact hdir _ n hn

/-- C5.  With dictionary completion enabled, when the dictionary
completer yields at least one candidate whose insert text is not a
trigger character (`[` or `.`), `get_completions` yields exactly the
dictionary completer's candidates and no path or oracle candidates;
when only trigger candidates are produced, the later sources are still
consulted.  The host's attribute oracle is assumed to return
identifier-like names (non-empty, not `"[."`), as `dir` does. -/
theorem claim_C5_dict_precedence (H : Host) (inp : AggInput) (text : String)
    (g l : Env) (ds : List Completion)
    (hdir : ∀ v n, n ∈ H.dirF v → n ≠ "" ∧ n ≠ ("[."))
    (henable : inp.enableDict = true)
    (hds : dict_get_completions H text g l = Except.ok ds) :
    ((∃ c ∈ ds, c.text ≠ "[" ∧ c.text ≠ ".") →
        python_get_completions H inp text g l = Except.ok ds)
    ∧ ((∀ c ∈ ds, c.text = "[" ∨ c.text = ".") →
        python_get_completions H inp text g l
          = Except.ok (ds
            ++ (if inp.completionRequested || inp.pathWhileTyping then
                  inp.pathCompletions else [])
            ++ (if inp.grammarMatches then []
                else if inp.completionRequested || inp.pythonWhileTyping then
                  inp.jediCompletions else []))) := by
  have hsane := dict_text_sane H text g l ds hdir hds
  constructor
  · rintro ⟨c, hc, h1, h2⟩
    have hfalse : pyInStr c.text ("[.") = false := by
      cases h : pyInStr c.text ("[.") with
      | false => rfl
      | true =>
        rcases pyInStr_bracketDot_cases _ h with h3 | h3 | h3 | h3
        · exact absurd h3 (hsane c hc).1
        · exact absurd h3 h1
        · exact absurd h3 h2
        · exact absurd h3 (hsane c hc).2
    have hany : ds.any (fun c => !(pyInStr c.text ("[."))) = true :=
      List.any_eq_true.mpr ⟨c, hc, by rw [hfalse]; rfl⟩
    unfold python_get_completions
    rw [if_pos henable, hds]
    simp only [hany]
    rfl
  · intro hall
    have hany : ds.any (fun c => !(pyInStr c.text ("[."))) = false := by
      rw [List.any_eq_false]
      intro c hc
      rcases hall c hc with h | h <;> rw [h] <;> decide
    unfold python_get_completions
    rw [if_pos henable, hds]
    simp only [hany]
    cases hg : inp.grammarMatches with
    | true => simp [List.append_nil]
    | false => simp

theorem dirSimple_sane : ∀ v n, n ∈ dirSimple v → n ≠ "" ∧ n ≠ ("[.") := by
  intro v
  cases v <;> simp only [dirSimple] <;> decide

/-- Witness for C5 at the spec's `d[` example (two non-trigger
candidates; the aggregator returns exactly them). -/
theorem claim_C5_dict_precedence_witness :
    (∀ v n, n ∈ hostSimple.dirF v → n ≠ "" ∧ n ≠ ("[."))
    ∧ dict_get_completions hostSimple ("d[")
        [("d", PyVal.dict [(PyVal.str "a", PyVal.int 1), (PyVal.str "bb", PyVal.int 2)])] []
      = Except.ok
          [⟨"'a']", 0, some ("['a']"), some ("1")⟩, ⟨"'bb']", 0, some ("['bb']"), some ("2")⟩]
    ∧ ((∃ c ∈ ([⟨"'a']", 0, some ("['a']"), some ("1")⟩,
          ⟨"'bb']", 0, some ("['bb']"), some ("2")⟩] : List Completion),
          c.text ≠ "[" ∧ c.text ≠ ".") →
        python_get_completions hostSimple
          { enableDict := true, completionRequested := true, pathWhileTyping := false,
            pythonWhileTyping := true,
            pathCompletions := [⟨"p", 0, Option.none, Option.none⟩],
            grammarMatches := false,
            jediCompletions := [⟨"j", 0, Option.none, Option.none⟩] } ("d[")
          [("d", PyVal.dict [(PyVal.str "a", PyVal.int 1), (PyVal.str "bb", PyVal.int 2)])] []
        = Except.ok
            [⟨"'a']", 0, some ("['a']"), some ("1")⟩,
             ⟨"'bb']", 0, some ("['bb']"), some ("2")⟩]) := by
  refine ⟨dirSimple_sane, rfl, ?_⟩
  · exact (claim_C5_dict_precedence hostSimple
      { enableDict := true, completionRequested := true, pathWhileTyping := false,
        pythonWhileTyping := true,
        pathCompletions := [⟨"p", 0, Option.none, Option.none⟩],
        grammarMatches := false,
        jediCompletions := [⟨"j", 0, Option.none, Option.none⟩] } ("d[")
      [("d", PyVal.dict [(PyVal.str "a", PyVal.int 1), (PyVal.str "bb", PyVal.int 2)])] []
      [⟨"'a']", 0, some ("['a']"), some ("1")⟩, ⟨"'bb']", 0, some ("['bb']"), some ("2")⟩]
      dirSimple_sane rfl rfl).1


/-! ## Lemmas: the compiled grammar on rendered token sequences -/

theorem exists_cons1 : ∀ (t : List Char), 1 ≤ t.length → ∃ a r, t = a :: r
  | [], h => absurd h (by decide)
  | a :: r, _ => ⟨a, r, rfl⟩

theorem exists_cons3 : ∀ (t : List Char), 3 ≤ t.length → ∃ a b c r, t = a :: b :: c :: r
  | [], h => absurd h (by decide)
  | [_], h => absurd h (by simp at h)
  | [_, _], h => absurd h (by simp at h)
  | a :: b :: c :: r, _ => ⟨a, b, c, r, rfl⟩

/-- Valid string items scan to the end of input as a current-string body. -/
theorem varBody_render (q : Char) (v : List SItem) (hv : ∀ i ∈ v, SOK q i) :
    varBodyToEnd q (renderItems v) = true := by
  induction v with
  | nil => rfl
  | cons i v ih =>
    have hi := hv i (List.mem_cons_self i v)
    have hrest := ih (fun j hj => hv j (List.mem_cons_of_mem i hj))
    cases i with
    | chr c =>
      obtain ⟨h1, h2, h3⟩ := hi
      show varBodyToEnd q (c :: renderItems v) = true
      cases hv2 : renderItems v with
      | nil =>
        show varBodyToEnd q [c] = true
        simp [varBodyToEnd, h1, h2, h3]
      | cons d t =>
        rw [hv2] at hrest
        show varBodyToEnd q (c :: d :: t) = true
        simp [varBodyToEnd, h1, h2, h3, hrest]
    | esc c =>
      show varBodyToEnd q ('\\' :: c :: renderItems v) = true
      simp [varBodyToEnd, hrest]

/-- A current-string body scan fails upon reaching an unescaped quote. -/
theorem varBody_false (q : Char) (hq : q ≠ '\\') (hqn : q ≠ '\n') (v : List SItem)
    (hv : ∀ i ∈ v, SOK q i) (rest : List Char) :
    varBodyToEnd q (renderItems v ++ q :: rest) = false := by
  induction v with
  | nil =>
    show varBodyToEnd q (q :: rest) = false
    cases rest with
    | nil => show varBodyToEnd q [q] = false; simp [varBodyToEnd, hq, hqn]
    | cons d t => show varBodyToEnd q (q :: d :: t) = false; simp [varBodyToEnd, hq]
  | cons i v ih =>
    have hi := hv i (List.mem_cons_self i v)
    have hrest := ih (fun j hj => hv j (List.mem_cons_of_mem i hj))
    cases i with
    | chr c =>
      obtain ⟨h1, h2, h3⟩ := hi
      show varBodyToEnd q (c :: (renderItems v ++ q :: rest)) = false
      cases hv2 : renderItems v ++ q :: rest with
      | nil => exact absurd hv2 (by simp)
      | cons d t =>
        rw [hv2] at hrest
        show varBodyToEnd q (c :: d :: t) = false
        simp [varBodyToEnd, h2, hrest]
    | esc c =>
      show varBodyToEnd q ('\\' :: c :: (renderItems v ++ q :: rest)) = false
      simp [varBodyToEnd, hrest]

/-- The quoted-string body scan consumes the rendered items and the closing
quote, returning the rest. -/
theorem strBody_render (q : Char) (hq : q ≠ '\\') (v : List SItem)
    (hv : ∀ i ∈ v, SOK q i) (rest : List Char) :
    strBody q (renderItems v ++ q :: rest) = some rest := by
  induction v with
  | nil =>
    show strBody q (q :: rest) = some rest
    cases rest with
    | nil => show strBody q [q] = some []; simp [strBody]
    | cons d t => show strBody q (q :: d :: t) = some (d :: t); simp [strBody]
  | cons i v ih =>
    have hi := hv i (List.mem_cons_self i v)
    have hrest := ih (fun j hj => hv j (List.mem_cons_of_mem i hj))
    cases i with
    | chr c =>
      obtain ⟨h1, h2, _⟩ := hi
      show strBody q (c :: (renderItems v ++ q :: rest)) = some rest
      cases hv2 : renderItems v ++ q :: rest with
      | nil => exact absurd hv2 (by simp)
      | cons d t =>
        rw [hv2] at hrest
        show strBody q (c :: d :: t) = some rest
        simp [strBody, h1, h2, hrest]
    | esc c =>
      have hq2 : ¬('\\' = q) := fun h => hq h.symm
      show strBody q ('\\' :: c :: (renderItems v ++ q :: rest)) = some rest
      simp [strBody, hq2, hrest]

/-- The two-quote lookahead fails on a rendered string token whose empty
body is not chased by its own quote. -/
theorem lookDouble_render (q0 : Char) (hq0b : q0 ≠ '\\') (items : List SItem)
    (hitems : ∀ i ∈ items, SOK q0 i) (tl2 : List Char)
    (hhd : items = [] → tl2.head? ≠ some q0) :
    lookDouble q0 (renderItems items ++ q0 :: tl2) = false := by
  cases items with
  | nil =>
    show lookDouble q0 (q0 :: tl2) = false
    cases tl2 with
    | nil => rfl
    | cons d t2 =>
      have hd : ¬(d = q0) := fun h => hhd rfl (by subst h; rfl)
      simp [lookDouble, hd]
  | cons i is =>
    cases i with
    | chr c =>
      have h1 : c ≠ q0 := (hitems _ (List.mem_cons_self _ _)).1
      show lookDouble q0 (c :: (renderItems is ++ q0 :: tl2)) = false
      cases hre : renderItems is ++ q0 :: tl2 with
      | nil => exact absurd hre (by simp)
      | cons d t2 =>
        simp [lookDouble, h1]
    | esc c =>
      have h2 : ¬('\\' = q0) := fun h => hq0b h.symm
      show lookDouble q0 ('\\' :: c :: (renderItems is ++ q0 :: tl2)) = false
      simp [lookDouble, h2]

theorem dropWhile_not_newline (b : List Char) (hb : '\n' ∉ b) (t : List Char) :
    (b ++ '\n' :: t).dropWhile (fun c => !(c = '\n')) = '\n' :: t := by
  induction b with
  | nil => simp [List.dropWhile]
  | cons c b ih =>
    have hc : c ≠ '\n' := by
      intro h
      subst h
      exact hb (List.mem_cons_self _ _)
    have ih2 := ih (fun h2 => hb (List.mem_cons_of_mem c h2))
    show List.dropWhile (fun c => !(c = '\n')) (c :: (b ++ '\n' :: t)) = '\n' :: t
    rw [List.dropWhile_cons]
    simp [hc, ih2]

/-- The rest of the input is one way to finish a newline-terminated
comment token. -/
theorem commentEnds_mem (b : List Char) (hb : '\n' ∉ b) (rest : List Char) :
    rest ∈ commentEnds (b ++ '\n' :: rest) := by
  simp [commentEnds, dropWhile_not_newline b hb rest]

/-- With input left after it, a newline-terminated comment token finishes
exactly at the rest of the input. -/
theorem commentEnds_eq (b : List Char) (hb : '\n' ∉ b) (rest : List Char)
    (hr : rest ≠ []) : commentEnds (b ++ '\n' :: rest) = [rest] := by
  simp [commentEnds, dropWhile_not_newline b hb rest, hr]


/-- Scanning a well-formed triple-quoted body reaches the closing
three-quote run; the input after it is among the possible suffixes. -/
theorem tripleRests_mem (q : Char) (strict : Bool) (b : List Char) (hb : TBody q b) :
    ∀ (rest : List Char) (fuel : Nat), b.length + 1 ≤ fuel →
      rest ∈ tripleRests q strict fuel (b ++ q :: q :: q :: rest) := by
  induction hb with
  | nil =>
    intro rest fuel hf
    cases fuel with
    | zero => exact absurd hf (by omega)
    | succ f =>
      show rest ∈ tripleRests q strict (f + 1) (q :: q :: q :: rest)
      simp [tripleRests]
  | chr h1 h2 hb2 ih =>
    intro rest fuel hf
    cases fuel with
    | zero => exact absurd hf (by simp at hf)
    | succ f =>
      next c s =>
      show rest ∈ tripleRests q strict (f + 1) (c :: (s ++ q :: q :: q :: rest))
      obtain ⟨d, e, g, r, hX⟩ := exists_cons3 (s ++ q :: q :: q :: rest)
        (by simp only [List.length_append, List.length_cons]; omega)
      rw [hX]
      have hrec := ih rest f (by simp only [List.length_cons] at hf ⊢; omega)
      rw [hX] at hrec
      simp [tripleRests, h1, h2, hrec]
  | one h1 hb2 ih =>
    intro rest fuel hf
    cases fuel with
    | zero => exact absurd hf (by simp at hf)
    | succ f =>
      next c s =>
      show rest ∈ tripleRests q strict (f + 1) (q :: c :: (s ++ q :: q :: q :: rest))
      obtain ⟨d, t2, hX⟩ := exists_cons1 (s ++ q :: q :: q :: rest)
        (by simp only [List.length_append, List.length_cons]; omega)
      rw [hX]
      have hrec : rest ∈ tripleRests q strict f (c :: (s ++ q :: q :: q :: rest)) :=
        ih rest f (by simp only [List.length_cons] at hf ⊢; omega)
      rw [hX] at hrec
      simp [tripleRests, h1, hrec]
  | two h1 hb2 ih =>
    intro rest fuel hf
    cases fuel with
    | zero => exact absurd hf (by simp at hf)
    | succ f =>
      next c s =>
      show rest ∈ tripleRests q strict (f + 1) (q :: q :: c :: (s ++ q :: q :: q :: rest))
      have hrec : rest ∈ tripleRests q strict f (c :: (s ++ q :: q :: q :: rest)) :=
        ih rest f (by simp only [List.length_cons] at hf ⊢; omega)
      simp [tripleRests, h1, hrec]

/-- For the strict (single-quote) style, scanning a well-formed
triple-quoted body stops exactly at the closing run. -/
theorem tripleRests_strict_eq (q : Char) (b : List Char) (hb : TBody q b) :
    ∀ (rest : List Char) (fuel : Nat), b.length + 1 ≤ fuel →
      tripleRests q true fuel (b ++ q :: q :: q :: rest) = [rest] := by
  induction hb with
  | nil =>
    intro rest fuel hf
    cases fuel with
    | zero => exact absurd hf (by omega)
    | succ f =>
      show tripleRests q true (f + 1) (q :: q :: q :: rest) = [rest]
      simp [tripleRests]
  | chr h1 h2 hb2 ih =>
    intro rest fuel hf
    cases fuel with
    | zero => exact absurd hf (by simp at hf)
    | succ f =>
      next c s =>
      show tripleRests q true (f + 1) (c :: (s ++ q :: q :: q :: rest)) = [rest]
      obtain ⟨d, e, g, r, hX⟩ := exists_cons3 (s ++ q :: q :: q :: rest)
        (by simp only [List.length_append, List.length_cons]; omega)
      rw [hX]
      have hrec := ih rest f (by simp only [List.length_cons] at hf ⊢; omega)
      rw [hX] at hrec
      simp [tripleRests, h1, h2, hrec]
  | one h1 hb2 ih =>
    intro rest fuel hf
    cases fuel with
    | zero => exact absurd hf (by simp at hf)
    | succ f =>
      next c s =>
      show tripleRests q true (f + 1) (q :: c :: (s ++ q :: q :: q :: rest)) = [rest]
      obtain ⟨d, t2, hX⟩ := exists_cons1 (s ++ q :: q :: q :: rest)
        (by simp only [List.length_append, List.length_cons]; omega)
      rw [hX]
      have hrec : tripleRests q true f (c :: (s ++ q :: q :: q :: rest)) = [rest] :=
        ih rest f (by simp only [List.length_cons] at hf ⊢; omega)
      rw [hX] at hrec
      simp [tripleRests, h1, hrec]
  | two h1 hb2 ih =>
    intro rest fuel hf
    cases fuel with
    | zero => exact absurd hf (by simp at hf)
    | succ f =>
      next c s =>
      show tripleRests q true (f + 1) (q :: q :: c :: (s ++ q :: q :: q :: rest)) = [rest]
      have hrec : tripleRests q true f (c :: (s ++ q :: q :: q :: rest)) = [rest] :=
        ih rest f (by simp only [List.length_cons] at hf ⊢; omega)
      simp [tripleRests, h1, hrec]

theorem hasRun3_tail (q x : Char) (l : List Char) (h : hasRun3 q (x :: l) = false) :
    hasRun3 q l = false := by
  cases l with
  | nil => rfl
  | cons y t =>
    cases t with
    | nil => rfl
    | cons z t2 =>
      rw [hasRun3] at h
      exact (Bool.or_eq_false_iff.mp h).2

/-- Without a three-quote run, the strict triple-quoted body scan finds
no closing at all. -/
theorem tripleRests_norun (q : Char) : ∀ (fuel : Nat) (l : List Char),
    hasRun3 q l = false → tripleRests q true fuel l = [] := by
  intro fuel
  induction fuel with
  | zero => intro l _; rfl
  | succ f ih =>
    intro l hl
    match l with
    | [] => rfl
    | [a] => rfl
    | [a, b] => rfl
    | a :: b :: c :: r =>
      rw [hasRun3] at hl
      obtain ⟨h1, h2⟩ := Bool.or_eq_false_iff.mp hl
      by_cases ha : a = q
      · by_cases hb : b = q
        · by_cases hc : c = q
          · rw [ha, hb, hc] at h1
            simp at h1
          · have hcr := hasRun3_tail q b (c :: r) h2
            simp [tripleRests, ha, hb, hc, ih _ hcr]
        · simp [tripleRests, ha, hb, ih _ h2]
      · by_cases hbsl : a = '\\'
        · subst hbsl
          by_cases hcbr : c = ']'
          · subst hcbr
            have hr := hasRun3_tail q ']' r (hasRun3_tail q b (']' :: r) h2)
            simp [tripleRests, ha, ih _ hr]
          · simp [tripleRests, ha, hcbr]
        · simp [tripleRests, ha, hbsl, ih _ h2]

theorem renderTok_head (t : PreTok) : ∃ r, renderTok t = headTok t :: r := by
  cases t <;> exact ⟨_, rfl⟩

/-- The first character of a rendered token sequence followed by the
current region's opener. -/
theorem renderSeq_head (ts : List PreTok) (stop : Char) (w : List Char)
    (hw : w.head? = some stop) : (renderSeq ts ++ w).head? = some (nextOf ts stop) := by
  cases ts with
  | nil =>
    show ([] ++ w).head? = some stop
    simpa using hw
  | cons t ts =>
    obtain ⟨r, hr⟩ := renderTok_head t
    show ((renderTok t ++ renderSeq ts) ++ w).head? = some (headTok t)
    rw [hr]
    rfl


theorem bor_left {a b : Bool} (h : a = true) : (a || b) = true := by
  rw [h, Bool.true_or]

theorem bor_right {a b : Bool} (h : b = true) : (a || b) = true := by
  rw [h, Bool.or_true]

theorem band_intro {a b : Bool} (ha : a = true) (hb : b = true) : (a && b) = true := by
  rw [ha, hb]
  rfl

/-- Consuming one complete prefix token preserves grammar acceptance of
the rest of the input, at one more unit of fuel. -/
theorem tok_step (cur : List Char → Bool) (t : PreTok) (tl2 : List Char) (fuel : Nat)
    (hok : TokOK t)
    (hclash : ∀ q0, t = PreTok.str q0 [] → tl2.head? ≠ some q0)
    (h : grammarCoreW cur fuel tl2 = true) :
    grammarCoreW cur (fuel + 1) (renderTok t ++ tl2) = true := by
  cases t with
  | plain c =>
    obtain ⟨h1, h2, h3⟩ := hok
    show grammarCoreW cur (fuel + 1) (c :: tl2) = true
    simp only [grammarCoreW]
    refine bor_right ?_
    rw [if_neg h3, if_neg (by simp [h1, h2])]
    exact h
  | comment b =>
    have hm : tl2 ∈ commentEnds (b ++ '\n' :: tl2) := commentEnds_mem b hok tl2
    show grammarCoreW cur (fuel + 1) (('#' :: (b ++ ['\n'])) ++ tl2) = true
    have hl : ('#' :: (b ++ ['\n'])) ++ tl2 = '#' :: (b ++ '\n' :: tl2) := by simp
    rw [hl]
    simp only [grammarCoreW]
    refine bor_right ?_
    rw [if_pos trivial]
    exact List.any_eq_true.mpr ⟨tl2, hm, h⟩
  | str q0 items =>
    obtain ⟨hq0, hitems⟩ := hok
    have hq0b : q0 ≠ '\\' := by rcases hq0 with rfl | rfl <;> decide
    have hsb : strBody q0 (renderItems items ++ q0 :: tl2) = some tl2 :=
      strBody_render q0 hq0b items hitems tl2
    have hld : lookDouble q0 (renderItems items ++ q0 :: tl2) = false :=
      lookDouble_render q0 hq0b items hitems tl2 (fun hnil => hclash q0 (by rw [hnil]))
    show grammarCoreW cur (fuel + 1) ((q0 :: (renderItems items ++ [q0])) ++ tl2) = true
    have hl : (q0 :: (renderItems items ++ [q0])) ++ tl2
        = q0 :: (renderItems items ++ q0 :: tl2) := by simp
    rw [hl]
    simp only [grammarCoreW]
    refine bor_right ?_
    rw [if_neg (by rcases hq0 with rfl | rfl <;> decide),
      if_pos (by rcases hq0 with rfl | rfl <;> simp)]
    refine bor_right ?_
    rw [hld, hsb]
    simp [h]
  | tri q0 b =>
    obtain ⟨hq0, hb⟩ := hok
    show grammarCoreW cur (fuel + 1) ((q0 :: q0 :: q0 :: (b ++ [q0, q0, q0])) ++ tl2) = true
    have hl : (q0 :: q0 :: q0 :: (b ++ [q0, q0, q0])) ++ tl2
        = q0 :: q0 :: q0 :: (b ++ q0 :: q0 :: q0 :: tl2) := by simp
    rw [hl]
    simp only [grammarCoreW]
    refine bor_right ?_
    rw [if_neg (by rcases hq0 with rfl | rfl <;> decide),
      if_pos (by rcases hq0 with rfl | rfl <;> simp)]
    refine bor_left ?_
    refine band_intro (by simp) ?_
    refine List.any_eq_true.mpr ⟨tl2, ?_, h⟩
    exact tripleRests_mem q0 (q0 = '\'') b hb tl2 _
      (by simp only [List.length_append, List.length_cons]; omega)

/-- Consuming a valid prefix-token sequence preserves grammar acceptance,
spending one unit of fuel per token. -/
theorem seq_consume (cur : List Char → Bool) (stop : Char) (w : List Char)
    (hw : w.head? = some stop) :
    ∀ (ts : List PreTok), SeqOK ts stop → ∀ fuel, grammarCoreW cur fuel w = true →
      grammarCoreW cur (fuel + ts.length) (renderSeq ts ++ w) = true := by
  intro ts
  induction ts with
  | nil =>
    intro _ fuel h
    exact h
  | cons t ts ih =>
    intro hseq fuel h
    obtain ⟨hok, hclash, hrest⟩ := hseq
    have h2 := ih hrest fuel h
    have hclash2 : ∀ q0, t = PreTok.str q0 [] → (renderSeq ts ++ w).head? ≠ some q0 := by
      intro q0 ht hcon
      rw [renderSeq_head ts stop w hw] at hcon
      subst ht
      simp only [noEmptyClash] at hclash
      exact hclash (by trivial) (Option.some.inj hcon)
    have h3 := tok_step cur t (renderSeq ts ++ w) (fuel + ts.length) hok hclash2 h2
    rw [show renderSeq (t :: ts) ++ w = renderTok t ++ (renderSeq ts ++ w) from by
      simp [renderSeq]]
    exact h3

/-- C3 (amended): for every honest tokenisation of the text before the
cursor — complete plain, comment, string and triple-quoted tokens whose
triple bodies are backslash-free — followed by an opening quote and
valid current-string content, the compiled path-completer grammar
matches and classifies the cursor as inside a string of that quote
style (`var1` for `'`, `var2` for `"`). -/
theorem claim_C3_amended (ts : List PreTok) (q : Char) (v : List SItem)
    (hq : q = '\'' ∨ q = '"') (hseq : SeqOK ts q) (hv : ∀ i ∈ v, SOK q i) :
    GrammarClassifies q (renderSeq ts ++ q :: renderItems v) := by
  have hbase : grammarCoreW (curQ q) 1 (q :: renderItems v) = true := by
    simp only [grammarCoreW]
    refine bor_left ?_
    show (q = q && varBodyToEnd q (renderItems v)) = true
    simp [varBody_render q v hv]
  exact ⟨1 + ts.length, seq_consume (curQ q) q (q :: renderItems v) rfl ts hseq 1 hbase⟩

/-- Witness for the amended C3: text `'''a''' 'x` (a backslash-free
triple-quoted region, a space, then an open single-quoted string) is
classified as inside a single-quoted string. -/
theorem claim_C3_amended_witness :
    GrammarClassifies '\''
      (renderSeq [PreTok.tri '\'' ['a'], PreTok.plain ' '] ++ '\'' :: renderItems [SItem.chr 'x']) :=
  claim_C3_amended [PreTok.tri '\'' ['a'], PreTok.plain ' '] '\'' [SItem.chr 'x']
    (Or.inl rfl)
    ⟨⟨Or.inl rfl, TBody.chr (by decide) (by decide) TBody.nil⟩, trivial,
      ⟨by decide, by decide, by decide⟩, trivial, trivial⟩
    (by
      intro i hi
      rcases List.mem_singleton.mp hi with rfl
      exact ⟨by decide, by decide, by decide⟩)

/-- C3 counterexample: in `'''\a''' 'x` the cursor sits in a `'...'`
string region (content `x`, valid for the single-quote style) after a
complete triple-quoted region, yet the grammar does not match at all —
the triple-quoted body `\a` is unparseable because the grammar's escape
alternative inside triple quotes is the mangled `\\.]`, so no
classification happens. -/
theorem claim_C3_counterexample :
    renderSeq [PreTok.tri '\'' ['\\', 'a'], PreTok.plain ' '] ++ '\'' :: renderItems [SItem.chr 'x']
        = ['\'', '\'', '\'', '\\', 'a', '\'', '\'', '\'', ' ', '\'', 'x']
      ∧ (∀ i ∈ [SItem.chr 'x'], SOK '\'' i)
      ∧ ¬ GrammarClassifies '\'' ['\'', '\'', '\'', '\\', 'a', '\'', '\'', '\'', ' ', '\'', 'x']
      ∧ ¬ GrammarMatches ['\'', '\'', '\'', '\\', 'a', '\'', '\'', '\'', ' ', '\'', 'x'] := by
  refine ⟨rfl, ?_, ?_, ?_⟩
  · intro i hi
    rcases List.mem_singleton.mp hi with rfl
    exact ⟨by decide, by decide, by decide⟩
  · rintro ⟨fuel, hf⟩
    have hz : grammarCoreW (curQ '\'') fuel
        ['\'', '\'', '\'', '\\', 'a', '\'', '\'', '\'', ' ', '\'', 'x'] = false := by
      cases fuel with
      | zero => rfl
      | succ n => rfl
    rw [hz] at hf
    exact Bool.noConfusion hf
  · rintro ⟨fuel, hf⟩
    have hz : grammarCoreW curAny fuel
        ['\'', '\'', '\'', '\\', 'a', '\'', '\'', '\'', ' ', '\'', 'x'] = false := by
      cases fuel with
      | zero => rfl
      | succ n => rfl
    rw [hz] at hf
    exact Bool.noConfusion hf


theorem bor_elim {a b : Bool} (h : (a || b) = true) : a = true ∨ b = true := by
  cases a with
  | false => exact Or.inr (by simpa using h)
  | true => exact Or.inl rfl

theorem band_elim {a b : Bool} (h : (a && b) = true) : a = true ∧ b = true := by
  cases a with
  | false => exact absurd h (by simp)
  | true => exact ⟨rfl, by simpa using h⟩

/-- The recogniser is monotone in the final current-string acceptor. -/
theorem grammarCoreW_imp (c1 c2 : List Char → Bool) (hc : ∀ x, c1 x = true → c2 x = true) :
    ∀ (fuel : Nat) (s : List Char), grammarCoreW c1 fuel s = true → grammarCoreW c2 fuel s = true := by
  intro fuel
  induction fuel with
  | zero =>
    intro s hs
    exact absurd hs (by simp [grammarCoreW])
  | succ f ih =>
    intro s hs
    cases s with
    | nil =>
      simp only [grammarCoreW] at hs ⊢
      simp only [Bool.or_false] at hs ⊢
      exact hc [] hs
    | cons c rest =>
      simp only [grammarCoreW] at hs ⊢
      rcases bor_elim hs with hcur | hbr
      · exact bor_left (hc _ hcur)
      refine bor_right ?_
      by_cases hhash : c = '#'
      · rw [if_pos hhash] at hbr ⊢
        rw [List.any_eq_true] at hbr ⊢
        obtain ⟨x, hx, hxx⟩ := hbr
        exact ⟨x, hx, ih x hxx⟩
      · rw [if_neg hhash] at hbr ⊢
        by_cases hq : (c = '\'' || c = '"') = true
        · rw [if_pos hq] at hbr ⊢
          rcases bor_elim hbr with htri | hsingle
          · refine bor_left ?_
            cases rest with
            | nil => exact htri
            | cons b rest2 =>
              cases rest2 with
              | nil => exact htri
              | cons d r3 =>
                rcases band_elim htri with ⟨hbd, hany⟩
                refine band_intro hbd ?_
                rw [List.any_eq_true] at hany ⊢
                obtain ⟨x, hx, hxx⟩ := hany
                exact ⟨x, hx, ih x hxx⟩
          · refine bor_right ?_
            rcases band_elim hsingle with ⟨hld, hmb⟩
            refine band_intro hld ?_
            cases hsb : strBody c rest with
            | none =>
              rw [hsb] at hmb
              exact hmb
            | some r =>
              rw [hsb] at hmb
              exact ih r hmb
        · rw [if_neg hq] at hbr ⊢
          exact ih rest hbr

/-- Matching with the quote-specific current group implies matching with
either-quote current group. -/
theorem curQ_le_curAny (q : Char) (hq : q = '\'' ∨ q = '"') :
    ∀ x, curQ q x = true → curAny x = true := by
  intro x hx
  cases x with
  | nil => exact Bool.noConfusion hx
  | cons c rest =>
    rcases band_elim hx with ⟨hcq, hvb⟩
    have hc : c = q := of_decide_eq_true hcq
    subst hc
    show ((c = '\'' || c = '"') && varBodyToEnd c rest) = true
    rcases hq with rfl | rfl <;> simp [hvb]

/-- At the opening of an unterminated triple-quoted region whose body
has no closing run, the grammar rejects, whatever the fuel. -/
theorem open_triple_blocked (B : List Char) (hrun : hasRun3 '\'' B = false) :
    ∀ fuel, grammarCoreW curAny fuel ('\'' :: '\'' :: '\'' :: B) = false := by
  intro fuel
  cases fuel with
  | zero => rfl
  | succ f =>
    have h1 : tripleRests '\'' true (B.length + 1) B = [] :=
      tripleRests_norun '\'' (B.length + 1) B hrun
    simp [grammarCoreW, h1, curAny, varBodyToEnd, lookDouble]

/-- Consuming one complete prefix token cannot rescue a rejected rest:
each token alternative either fails or lands exactly on the rest of the
input. -/
theorem tok_step_false (t : PreTok) (R : List Char) (fuel : Nat)
    (hok : TokOK t)
    (htri : ∀ q0 b2, t = PreTok.tri q0 b2 → q0 = '\'')
    (hclash : ∀ q0, t = PreTok.str q0 [] → R.head? ≠ some q0)
    (hR3 : 3 ≤ R.length)
    (hall : ∀ f2, grammarCoreW curAny f2 R = false) :
    grammarCoreW curAny fuel (renderTok t ++ R) = false := by
  obtain ⟨x, y, z, r, hRx⟩ := exists_cons3 R hR3
  cases fuel with
  | zero => rfl
  | succ f =>
    cases t with
    | plain c =>
      obtain ⟨h1, h2, h3⟩ := hok
      show grammarCoreW curAny (f + 1) (c :: R) = false
      simp only [grammarCoreW]
      have hcur : curAny (c :: R) = false := by simp [curAny, h1, h2]
      rw [hcur, if_neg h3, if_neg (by simp [h1, h2]), hall f]
      rfl
    | comment b =>
      show grammarCoreW curAny (f + 1) (('#' :: (b ++ ['\n'])) ++ R) = false
      have hl : ('#' :: (b ++ ['\n'])) ++ R = '#' :: (b ++ '\n' :: R) := by simp
      rw [hl]
      simp only [grammarCoreW]
      have hR0 : R ≠ [] := by rw [hRx]; simp
      rw [if_pos trivial, commentEnds_eq b hok R hR0]
      have hcur : curAny ('#' :: (b ++ '\n' :: R)) = false := rfl
      rw [hcur]
      simp [hall f]
    | str q0 items =>
      obtain ⟨hq0, hitems⟩ := hok
      have hq0b : q0 ≠ '\\' := by rcases hq0 with rfl | rfl <;> decide
      have hq0n : q0 ≠ '\n' := by rcases hq0 with rfl | rfl <;> decide
      have hsb : strBody q0 (renderItems items ++ q0 :: R) = some R :=
        strBody_render q0 hq0b items hitems R
      have hld : lookDouble q0 (renderItems items ++ q0 :: R) = false :=
        lookDouble_render q0 hq0b items hitems R (fun hnil => hclash q0 (by rw [hnil]))
      have hvb : varBodyToEnd q0 (renderItems items ++ q0 :: R) = false :=
        varBody_false q0 hq0b hq0n items hitems R
      show grammarCoreW curAny (f + 1) ((q0 :: (renderItems items ++ [q0])) ++ R) = false
      have hl : (q0 :: (renderItems items ++ [q0])) ++ R
          = q0 :: (renderItems items ++ q0 :: R) := by simp
      rw [hl]
      simp only [grammarCoreW]
      have hcur : curAny (q0 :: (renderItems items ++ q0 :: R)) = false := by
        show ((q0 = '\'' || q0 = '"') && varBodyToEnd q0 (renderItems items ++ q0 :: R)) = false
        rw [hvb]
        simp
      rw [hcur, if_neg (by rcases hq0 with rfl | rfl <;> decide),
        if_pos (by rcases hq0 with rfl | rfl <;> simp)]
      obtain ⟨u, v2, tl3, huv, hguard⟩ :
          ∃ u v2 tl3, renderItems items ++ q0 :: R = u :: v2 :: tl3 ∧ (u = q0 && v2 = q0) = false := by
        cases items with
        | nil =>
          refine ⟨q0, x, y :: z :: r, ?_, ?_⟩
          · show q0 :: R = q0 :: x :: y :: z :: r
            rw [hRx]
          · have hx2 : ¬(x = q0) := by
              intro hx2
              exact hclash q0 rfl (by rw [hRx, hx2]; rfl)
            simp [hx2]
        | cons i is =>
          cases i with
          | chr c =>
            have h1 : c ≠ q0 := (hitems _ (List.mem_cons_self _ _)).1
            obtain ⟨d, w, hdw⟩ := exists_cons1 (renderItems is ++ q0 :: R)
              (by simp only [List.length_append, List.length_cons]; omega)
            refine ⟨c, d, w, ?_, by simp [h1]⟩
            show c :: (renderItems is ++ q0 :: R) = c :: d :: w
            rw [hdw]
          | esc c =>
            have h2 : ¬('\\' = q0) := fun h => hq0b h.symm
            exact ⟨'\\', c, renderItems is ++ q0 :: R, rfl, by simp [h2]⟩
      rw [huv] at hld hsb
      rw [huv]
      simp [hguard, hld, hsb, hall f]
    | tri q0 b =>
      obtain ⟨hq02, hb2⟩ := hok
      have hq0 : q0 = '\'' := htri q0 b rfl
      subst hq0
      show grammarCoreW curAny (f + 1)
        (('\'' :: '\'' :: '\'' :: (b ++ ['\'', '\'', '\''])) ++ R) = false
      have hl : ('\'' :: '\'' :: '\'' :: (b ++ ['\'', '\'', '\''])) ++ R
          = '\'' :: '\'' :: '\'' :: (b ++ '\'' :: '\'' :: '\'' :: R) := by simp
      rw [hl]
      simp only [grammarCoreW]
      have hcur : curAny ('\'' :: '\'' :: '\'' :: (b ++ '\'' :: '\'' :: '\'' :: R)) = false := rfl
      rw [hcur]
      have htr3 : tripleRests '\'' true (b.length + (R.length + 1 + 1 + 1) + 1)
          (b ++ '\'' :: '\'' :: '\'' :: R) = [R] :=
        tripleRests_strict_eq '\'' b hb2 R _ (by omega)
      simp [hall f, lookDouble, htr3]

/-- No fuel makes the grammar match a valid prefix-token sequence (with
single-quote-style triple regions only) followed by an open `'''` region
whose body has no closing run. -/
theorem c4_core (B : List Char) (hrun : hasRun3 '\'' B = false) :
    ∀ (ts : List PreTok), SeqOK ts '\'' → OnlySQTri ts →
      ∀ fuel, grammarCoreW curAny fuel (renderSeq ts ++ '\'' :: '\'' :: '\'' :: B) = false := by
  intro ts
  induction ts with
  | nil =>
    intro _ _ fuel
    exact open_triple_blocked B hrun fuel
  | cons t ts ih =>
    intro hseq hsq fuel
    obtain ⟨hok, hclash, hrest⟩ := hseq
    have ihr := ih hrest (fun u hu => hsq u (List.mem_cons_of_mem t hu))
    have hclash2 : ∀ q0, t = PreTok.str q0 [] →
        (renderSeq ts ++ '\'' :: '\'' :: '\'' :: B).head? ≠ some q0 := by
      intro q0 ht hcon
      rw [renderSeq_head ts '\'' ('\'' :: '\'' :: '\'' :: B) rfl] at hcon
      subst ht
      simp only [noEmptyClash] at hclash
      exact hclash (by trivial) (Option.some.inj hcon)
    have htri2 : ∀ q0 b2, t = PreTok.tri q0 b2 → q0 = '\'' :=
      fun q0 b2 ht => hsq t (List.mem_cons_self t ts) q0 b2 ht
    have hlen : 3 ≤ (renderSeq ts ++ '\'' :: '\'' :: '\'' :: B).length := by
      simp only [List.length_append, List.length_cons]
      omega
    have hstep := tok_step_false t _ fuel hok htri2 hclash2 hlen ihr
    rw [show renderSeq (t :: ts) ++ '\'' :: '\'' :: '\'' :: B
        = renderTok t ++ (renderSeq ts ++ '\'' :: '\'' :: '\'' :: B) from by
      simp [renderSeq]]
    exact hstep

/-- C4 (amended): when every complete triple-quoted region of the prefix
uses the single-quote style, a cursor inside an open `'''` body (no
closing run typed yet) is never classified as inside a single- or
double-quoted string — the grammar does not match at all. -/
theorem claim_C4_amended (ts : List PreTok) (B : List Char)
    (hseq : SeqOK ts '\'') (hsq : OnlySQTri ts) (hrun : hasRun3 '\'' B = false) :
    ¬ GrammarMatches (renderSeq ts ++ '\'' :: '\'' :: '\'' :: B)
      ∧ ¬ GrammarClassifies '\'' (renderSeq ts ++ '\'' :: '\'' :: '\'' :: B)
      ∧ ¬ GrammarClassifies '"' (renderSeq ts ++ '\'' :: '\'' :: '\'' :: B) := by
  have hcore := c4_core B hrun ts hseq hsq
  refine ⟨?_, ?_, ?_⟩
  · rintro ⟨fuel, hf⟩
    rw [hcore fuel] at hf
    exact Bool.noConfusion hf
  · rintro ⟨fuel, hf⟩
    have h2 := grammarCoreW_imp (curQ '\'') curAny (curQ_le_curAny '\'' (Or.inl rfl)) fuel _ hf
    rw [hcore fuel] at h2
    exact Bool.noConfusion h2
  · rintro ⟨fuel, hf⟩
    have h2 := grammarCoreW_imp (curQ '"') curAny (curQ_le_curAny '"' (Or.inr rfl)) fuel _ hf
    rw [hcore fuel] at h2
    exact Bool.noConfusion h2

/-- Witness for the amended C4: after the prefix `"a" ` (a complete
double-quoted string and a space), an open `''' y` region is never
classified as inside a string. -/
theorem claim_C4_amended_witness :
    ¬ GrammarMatches (renderSeq [PreTok.str '"' [SItem.chr 'a'], PreTok.plain ' ']
        ++ '\'' :: '\'' :: '\'' :: [' ', 'y'])
      ∧ ¬ GrammarClassifies '\'' (renderSeq [PreTok.str '"' [SItem.chr 'a'], PreTok.plain ' ']
        ++ '\'' :: '\'' :: '\'' :: [' ', 'y'])
      ∧ ¬ GrammarClassifies '"' (renderSeq [PreTok.str '"' [SItem.chr 'a'], PreTok.plain ' ']
        ++ '\'' :: '\'' :: '\'' :: [' ', 'y']) :=
  claim_C4_amended [PreTok.str '"' [SItem.chr 'a'], PreTok.plain ' '] [' ', 'y']
    ⟨⟨Or.inr rfl, by
        intro i hi
        rcases List.mem_singleton.mp hi with rfl
        exact ⟨by decide, by decide, by decide⟩⟩,
      by intro h2; exact List.noConfusion h2,
      ⟨by decide, by decide, by decide⟩, trivial, trivial⟩
    (by
      intro u hu q0 b2 hub
      rcases List.mem_cons.mp hu with rfl | hu2
      · exact PreTok.noConfusion hub
      · rcases List.mem_singleton.mp hu2 with rfl
        exact PreTok.noConfusion hub)
    rfl

/-- C4 counterexample: in `""" """ """ "x` the cursor sits inside the
body of the third (unterminated) triple-quoted region — the honest
tokenisation is two complete tokens `""" """` and a space, then the
opener `"""` and body ` "x` with no closing run — yet the grammar
matches and classifies the position as inside a double-quoted string
(the `var2` group), because the grammar's two-quote alternative for
double triples is the mangled, always-passing `""(?!^)`. -/
theorem claim_C4_counterexample :
    renderSeq [PreTok.tri '"' [' '], PreTok.plain ' '] ++ '"' :: '"' :: '"' :: [' ', '"', 'x']
        = ['"', '"', '"', ' ', '"', '"', '"', ' ', '"', '"', '"', ' ', '"', 'x']
      ∧ SeqOK [PreTok.tri '"' [' '], PreTok.plain ' '] '"'
      ∧ hasRun3 '"' [' ', '"', 'x'] = false
      ∧ GrammarClassifies '"'
          ['"', '"', '"', ' ', '"', '"', '"', ' ', '"', '"', '"', ' ', '"', 'x'] := by
  refine ⟨rfl, ⟨⟨Or.inr rfl, TBody.chr (by decide) (by decide) TBody.nil⟩, trivial,
    ⟨by decide, by decide, by decide⟩, trivial, trivial⟩, rfl, 20, rfl⟩

end Ptpython
